import Mathlib

/-!
Verification development for the `aistand` CLI (Git commit summarizer).

The JavaScript source is shallowly embedded: JS strings are Lean `String`s
manipulated through character-list primitives mirroring the JS string methods
used by the source (`split`, `trim`, `includes`, `endsWith`, `toLowerCase`,
default lexicographic `sort`).  Async control flow is sequentialized; network
effects (git subprocesses, the Gemini API) are supplied as explicit
environment functions, and the calls the program makes are collected in
traces so that "zero provider calls" style properties can be stated.
-/

namespace Aistand

/-- JS word character for the regex word-boundary assertion: `[A-Za-z0-9_]`. -/
def isWordChar (c : Char) : Bool :=
  (('A' ≤ c ∧ c ≤ 'Z') ∨ ('a' ≤ c ∧ c ≤ 'z') ∨ ('0' ≤ c ∧ c ≤ '9') ∨ c = '_')

/-- ASCII uppercase letter, the `[A-Z]` character class. -/
def isUpperAZ (c : Char) : Bool := 'A' ≤ c ∧ c ≤ 'Z'

/-- ASCII digit, the `\d` character class. -/
def isDigitC (c : Char) : Bool := '0' ≤ c ∧ c ≤ '9'

/-- Occurrence test for a character-list pattern inside a character list. -/
def containsSub (pat : List Char) : List Char → Bool
  | [] => pat.isEmpty
  | c :: cs => pat.isPrefixOf (c :: cs) || containsSub pat cs

/-- JS `s.includes(pat)` (for the non-empty patterns the source uses). -/
def jsIncludes (s pat : String) : Bool := containsSub pat.data s.data

/-- JS `s.endsWith(suffix)`. -/
def jsEndsWith (s suffix : String) : Bool := suffix.data.isSuffixOf s.data

/-- Character-list trim used to model JS `s.trim()`. -/
def trimChars (l : List Char) : List Char :=
  ((l.dropWhile Char.isWhitespace).reverse.dropWhile Char.isWhitespace).reverse

/-- JS `s.trim()` (whitespace on the names/messages involved is ASCII). -/
def jsTrim (s : String) : String := ⟨trimChars s.data⟩

/-- JS `s.toLowerCase()` (the model identifiers involved are ASCII). -/
def jsToLower (s : String) : String := ⟨s.data.map Char.toLower⟩

/-- Fuel-driven splitter behind `jsSplit`; fuel bounds the scan length so the
definition is structural and evaluates inside the kernel. -/
def splitAux (sep : List Char) : Nat → List Char → List Char → List (List Char)
  | _, [], cur => [cur.reverse]
  | 0, l, cur => [cur.reverse ++ l]
  | fuel+1, c :: cs, cur =>
    if sep.isPrefixOf (c :: cs) && !sep.isEmpty then
      cur.reverse :: splitAux sep fuel ((c :: cs).drop sep.length) []
    else splitAux sep fuel cs (c :: cur)

/-- JS `s.split(sep)` for a non-empty separator string. -/
def jsSplit (s sep : String) : List String :=
  (splitAux sep.data s.data.length s.data []).map (fun l => (⟨l⟩ : String))

/-- JS `array.join(sep)` for string arrays. -/
def jsJoin (sep : String) : List String → String
  | [] => ""
  | [s] => s
  | s :: rest => s ++ sep ++ jsJoin sep rest

/-- Lexicographic comparison of character lists by code point, modelling the
ordering used by JS default `Array.prototype.sort` on the ASCII names here. -/
def charListLe : List Char → List Char → Bool
  | [], _ => true
  | _ :: _, [] => false
  | a :: as, b :: bs =>
    if a.toNat < b.toNat then true
    else if b.toNat < a.toNat then false
    else charListLe as bs

/-- String comparison behind the modelled JS default sort. -/
def strLe (a b : String) : Bool := charListLe a.data b.data

/-- Ordered insertion used to model JS `sort()` (ascending). -/
def insSorted (x : String) : List String → List String
  | [] => [x]
  | y :: ys => if strLe x y then x :: y :: ys else y :: insSorted x ys

/-- JS `array.sort()` with the default comparator, on ASCII strings. -/
def sortStrings : List String → List String
  | [] => []
  | x :: xs => insSorted x (sortStrings xs)

/-- Insertion-ordered set `add`: JS `Set.prototype.add` on strings. -/
def addUnique (l : List String) (x : String) : List String :=
  if x ∈ l then l else l ++ [x]

/-- Insertion-ordered dedup, JS `Set` accumulation over a list. -/
def dedupeStr (l : List String) : List String := l.foldl addUnique []

/-! ## Commit aggregation (`fetchCommits` and its git helpers)

Git subprocesses are supplied by environment functions: each call yields
either the command's stdout or a failure carrying the stderr text that the
JS code inspects (`error.stderr`; an absent stderr is modelled as `""`,
which falsifies the `error.stderr && ...` guards just as `undefined` does).
The `repoPath`, `author` and `dateRange` arguments of the source only
parameterize the git invocation, so they are absorbed into the environment
function handed to `fetchCommits`. -/

/-- Failure of a spawned git process, as observed by the JS `catch` blocks. -/
structure GitError where
  stderr : String
deriving DecidableEq

/-- One commit parsed out of a `git log` block: hash, short date, and the
full message assembled from subject and body. -/
structure ParsedCommit where
  hash : String
  date : String
  message : String
deriving DecidableEq

/-- `body ? subject + "\n\n" + body : subject` from the block parser. -/
def mkFullMessage (subject body : String) : String :=
  if body = "" then subject else subject ++ "\n\n" ++ body

/-- The per-block parser inside `fetchCommits`: trim the block, split into
lines, and require at least hash/date/subject lines; remaining lines are
re-joined as the body. Blocks with fewer than 3 lines are dropped. -/
def parseBlock (block : String) : Option ParsedCommit :=
  match jsSplit (jsTrim block) "\n" with
  | l0 :: l1 :: l2 :: restLines =>
    some ⟨l0, l1, mkFullMessage l2 (jsTrim (jsJoin "\n" restLines))⟩
  | _ => none

/-- Separator written by the `--pretty` format of the source. -/
def commitSeparator : String := "---COMMIT_SEPARATOR---\n"

/-- Parsing of one branch's `git log` stdout: the empty-stdout `continue`,
the split on the separator, the non-empty-block filter, and per-block
parsing. -/
def parseGitLog (stdout : String) : List ParsedCommit :=
  if jsTrim stdout = "" then []
  else
    ((jsSplit (jsTrim stdout) commitSeparator).filter
        (fun b => jsTrim b ≠ "")).filterMap parseBlock

/-- Entry of the `commitsByHash` map (spread into the result array at the
end of `fetchCommits`). `branches` models the JS `Set` in insertion order. -/
structure CommitEntry where
  message : String
  date : String
  hash : String
  branches : List String
deriving DecidableEq

/-- JS `Set.prototype.add` on the `branches` set of an entry. -/
def addBranch (bs : List String) (b : String) : List String :=
  if b ∈ bs then bs else bs ++ [b]

/-- One iteration of the inner block loop of `fetchCommits`: record a parsed
commit in the insertion-ordered `commitsByHash` map. A first sighting
appends a fresh entry; a repeat sighting only adds the branch. -/
def addRecord (branch : String) : List CommitEntry → ParsedCommit → List CommitEntry
  | [], p => [⟨p.message, p.date, p.hash, [branch]⟩]
  | e :: rest, p =>
    if e.hash = p.hash then { e with branches := addBranch e.branches branch } :: rest
    else e :: addRecord branch rest p

/-- Scan of one branch's stdout into the accumulated map. -/
def scanBranch (acc : List CommitEntry) (branch stdout : String) : List CommitEntry :=
  (parseGitLog stdout).foldl (addRecord branch) acc

/-- stderr marker for a branch reference `git log` cannot resolve. -/
def unknownRevisionMarker : String := "unknown revision or path"

/-- stderr marker of git's not-a-repository fatal error. -/
def notARepoMarker : String := "fatal: not a git repository"

/-- The branch loop of `fetchCommits`: a per-branch `git log` failure whose
stderr signals an unknown revision is skipped with a warning; any other
failure is rethrown to the surrounding `catch`. -/
def fetchCommitsLoop (gitLog : String → Except GitError String) :
    List String → List CommitEntry → Except GitError (List CommitEntry)
  | [], acc => .ok acc
  | b :: rest, acc =>
    match gitLog b with
    | .error e =>
      if jsIncludes e.stderr unknownRevisionMarker then fetchCommitsLoop gitLog rest acc
      else .error e
    | .ok stdout => fetchCommitsLoop gitLog rest (scanBranch acc b stdout)

/-- Final shape of one aggregated commit: the branch set is rendered as a
sorted array (`Array.from(commit.branches).sort()`). -/
def finalizeEntry (e : CommitEntry) : CommitEntry :=
  { e with branches := sortStrings e.branches }

/-- Result of `fetchCommits`: either the aggregated commit list, or the
"Not a Git repository" error rethrown by the outer `catch`. -/
inductive FetchOutcome where
  | ok (commits : List CommitEntry)
  | notARepo
deriving DecidableEq

/-- `fetchCommits(repoPath, author, dateRange, branches)`. An empty branch
list falls back to the single pseudo-branch `HEAD`. The outer `catch` turns
a not-a-repository stderr into the fatal error and swallows every other
escaped failure into an empty result. -/
def fetchCommits (gitLog : String → Except GitError String)
    (branches : List String) : FetchOutcome :=
  let branchesToScan := if branches ≠ [] then branches else ["HEAD"]
  match fetchCommitsLoop gitLog branchesToScan [] with
  | .ok acc => .ok (acc.map finalizeEntry)
  | .error e => if jsIncludes e.stderr notARepoMarker then .notARepo else .ok []

/-! ## Model catalog (discovery, filtering, scoring, memoized resolution)

The JS number arithmetic in `scoreModelName` only involves small decimal
fractions (`parseFloat` of `\d+(\.\d+)?` times 1000 and integer bonuses),
which float64 represents exactly at the precision that occurs here; scores
are therefore modelled as exact unreduced fractions. -/

/-- Exact fraction with positive denominator, standing for the JS number
values produced by `scoreModelName`. -/
structure Frac where
  num : Int
  den : Nat
deriving DecidableEq

/-- Embedding of an integer score contribution. -/
def Frac.ofInt (n : Int) : Frac := ⟨n, 1⟩

/-- Fraction addition (no reduction needed, comparisons cross-multiply). -/
def Frac.add (a b : Frac) : Frac := ⟨a.num * b.den + b.num * a.den, a.den * b.den⟩

/-- Multiplication by a natural constant. -/
def Frac.mulNat (a : Frac) (k : Nat) : Frac := ⟨a.num * k, a.den⟩

/-- Comparison of fractions with positive denominators. -/
def Frac.le (a b : Frac) : Bool := a.num * b.den ≤ b.num * a.den

/-- `simplifyModelName`: strip everything up to the last `/` of a trimmed
model resource name; null/empty names are dropped. -/
def simplifyModelName (name : Option String) : Option String :=
  match name with
  | none => none
  | some n =>
    let trimmed := jsTrim n
    if trimmed = "" then none
    else (jsSplit trimmed "/").getLastD trimmed

/-- `isExperimentalModel`: experimental/preview/beta marker test on an
already-lowercased name. -/
def isExperimentalModel (lowerName : String) : Bool :=
  jsIncludes lowerName "exp" || jsIncludes lowerName "preview" || jsIncludes lowerName "beta"

/-- Value of the digit run `ds`. -/
def natOfDigits (ds : List Char) : Nat :=
  ds.foldl (fun a c => 10 * a + (c.toNat - 48)) 0

/-- `parseFloat` of a `\d+(\.\d+)?` capture starting at `l` (the caller
guarantees a leading digit); a dot not followed by a digit is not consumed,
as in the regex `(?:\.\d+)?`. -/
def parseVersionFrac (l : List Char) : Frac :=
  let ds := l.takeWhile isDigitC
  match l.dropWhile isDigitC with
  | '.' :: r2 =>
    let fs := r2.takeWhile isDigitC
    if fs = [] then ⟨natOfDigits ds, 1⟩
    else ⟨natOfDigits ds * 10 ^ fs.length + natOfDigits fs, 10 ^ fs.length⟩
  | _ => ⟨natOfDigits ds, 1⟩

/-- The literal searched by `extractVersion`'s regex. -/
def geminiDash : List Char := "gemini-".data

/-- Regex scan of `/gemini-(\d+(?:\.\d+)?)/` over an already-lowercased
name: first position where `gemini-` is followed by a digit. -/
def findGeminiVersion : Nat → List Char → Option Frac
  | 0, _ => none
  | _, [] => none
  | fuel+1, c :: rest =>
    if geminiDash.isPrefixOf (c :: rest)
        && (match (c :: rest).drop 7 with
            | d :: _ => isDigitC d
            | [] => false) then
      some (parseVersionFrac ((c :: rest).drop 7))
    else findGeminiVersion fuel rest

/-- `extractVersion`: parsed family version, 0 when the pattern is absent. -/
def extractVersion (name : String) : Frac :=
  (findGeminiVersion name.data.length name.data).getD ⟨0, 1⟩

/-- `scoreModelName`: tier bonus, version weight, and the latest /
experimental / reduced-capacity / pro adjustments. -/
def scoreModelName (name : String) : Frac :=
  let lower := jsToLower name
  let base : Int := if jsEndsWith lower "-flash" then 10000
    else if jsIncludes lower "flash" then 5000 else 0
  let adj : Int :=
    (if jsIncludes lower "latest" then 10 else 0)
    - (if isExperimentalModel lower then 30 else 0)
    - (if jsIncludes lower "8b" || jsIncludes lower "lite" || jsIncludes lower "mini"
        then 50 else 0)
    - (if jsIncludes lower "pro" then 100 else 0)
  ((extractVersion lower).mulNat 1000).add (Frac.ofInt (base + adj))

/-- Stable insertion for the descending score sort: an element moves ahead
only of strictly lower-scored ones, which reproduces the output of the
stable JS `sort((a, b) => score(b) - score(a))`. -/
def insertByScoreDesc (x : String) : List String → List String
  | [] => [x]
  | y :: ys =>
    if Frac.le (scoreModelName y) (scoreModelName x) then x :: y :: ys
    else y :: insertByScoreDesc x ys

/-- Stable descending sort by `scoreModelName`. -/
def sortByScoreDesc : List String → List String
  | [] => []
  | x :: xs => insertByScoreDesc x (sortByScoreDesc xs)

/-- `buildDynamicModelPreference` over the insertion-ordered set of
simplified names: keep gemini flash variants that are not experimental,
then sort by descending score. -/
def buildDynamicModelPreference (simpleNames : List String) : List String :=
  if simpleNames = [] then []
  else
    sortByScoreDesc (simpleNames.filter (fun name =>
      name ≠ "" && jsIncludes (jsToLower name) "gemini"
        && jsIncludes (jsToLower name) "flash"
        && !isExperimentalModel (jsToLower name)))

/-- `dedupeModelList`: drop falsy entries and repeats, keeping first
occurrences. -/
def dedupeModelList (list : List String) : List String :=
  (list.filter (fun i => i ≠ "")).foldl addUnique []

/-- Discovery result handed back by the provider's paginated model listing:
the `model?.name` fields in page order, or a transport failure. -/
structure CatalogEnv where
  discovery : Except Unit (List (Option String))

/-- The memoization cells and observable effects of the catalog: the two
module-level promise variables, the one-time warning flag, and a count of
actual discovery calls made to the provider. -/
structure CatalogState where
  availMemo : Option (Option (List String))
  resolvedMemo : Option (List String)
  warned : Bool
  discoveryCalls : Nat
deriving DecidableEq

/-- Process-start state: no memoized promises, no warning, no calls. -/
def freshCatalogState : CatalogState := ⟨none, none, false, 0⟩

/-- `loadAvailableModelInfo`: one discovery call; on failure log the
one-time warning and yield null, on success collect the simplified names
into an insertion-ordered set. -/
def loadAvailableModelInfo (aiClientPresent : Bool) (env : CatalogEnv)
    (st : CatalogState) : Option (List String) × CatalogState :=
  if !aiClientPresent then (none, st)
  else
    match env.discovery with
    | .error _ => (none, { st with warned := true, discoveryCalls := st.discoveryCalls + 1 })
    | .ok names =>
      (some (dedupeStr ((names.filterMap simplifyModelName).filter (fun s => s ≠ ""))),
       { st with discoveryCalls := st.discoveryCalls + 1 })

/-- `getAvailableModelInfo`: memoized front of `loadAvailableModelInfo`. -/
def getAvailableModelInfo (aiClientPresent : Bool) (env : CatalogEnv)
    (st : CatalogState) : Option (List String) × CatalogState :=
  if !aiClientPresent then (none, st)
  else
    match st.availMemo with
    | some r => (r, st)
    | none =>
      let (r, st1) := loadAvailableModelInfo aiClientPresent env st
      (r, { st1 with availMemo := some r })

/-- `getResolvedModelPreference`: memoized resolution — an explicit
override short-circuits discovery; otherwise the dynamic preference list is
built from discovery, with the empty list marking an unusable catalog. -/
def getResolvedModelPreference (aiClientPresent : Bool)
    (requestedModel : Option String) (env : CatalogEnv)
    (st : CatalogState) : List String × CatalogState :=
  match st.resolvedMemo with
  | some l => (l, st)
  | none =>
    match requestedModel with
    | some m => ([m], { st with resolvedMemo := some [m] })
    | none =>
      let (info, st1) := getAvailableModelInfo aiClientPresent env st
      match info with
      | none => ([], { st1 with resolvedMemo := some [] })
      | some simpleNames =>
        if simpleNames = [] then ([], { st1 with resolvedMemo := some [] })
        else
          let combined := dedupeModelList (buildDynamicModelPreference simpleNames)
          (combined, { st1 with resolvedMemo := some combined })

/-- `n` successive invocations of model-preference resolution within one
process, collecting each invocation's result. -/
def resolveIter (aiClientPresent : Bool) (requestedModel : Option String)
    (env : CatalogEnv) : Nat → CatalogState → List (List String) × CatalogState
  | 0, st => ([], st)
  | n+1, st =>
    let (r, st1) := getResolvedModelPreference aiClientPresent requestedModel env st
    let (rs, st2) := resolveIter aiClientPresent requestedModel env n st1
    (r :: rs, st2)

/-! ## Resilient generation (`callWithRetries`, `generateSummary`)

Provider calls are supplied by an environment function giving, for each
model name and per-model attempt index, either a response object or a
thrown error. The calls actually made and the backoff sleeps are collected
into traces. -/

/-- A status value carried by a thrown provider error: JS compares it both
with numbers (429, 500, ...) and strings ("UNAVAILABLE", ...). -/
inductive StatusVal where
  | num (n : Nat)
  | str (s : String)
deriving DecidableEq

/-- A thrown provider error as inspected by the classifiers: the four
status-bearing fields probed by `extractStatusCode` and the message. Absent
fields are `none` (the JS `||` chain skips `undefined`). -/
structure JsError where
  status : Option StatusVal
  code : Option StatusVal
  causeStatus : Option StatusVal
  responseStatus : Option StatusVal
  message : String
deriving DecidableEq

/-- An error carrying only a message, as produced by `new Error(msg)`. -/
def JsError.ofMessage (msg : String) : JsError := ⟨none, none, none, none, msg⟩

/-- `extractStatusCode`: first present field among
`status`, `code`, `cause.status`, `response.status`. -/
def extractStatusCode (e : JsError) : Option StatusVal :=
  e.status <|> e.code <|> e.causeStatus <|> e.responseStatus

/-- `isRetryableError`: rate-limit/server/timeout-like signals. -/
def isRetryableError (e : JsError) : Bool :=
  let status := extractStatusCode e
  let message := jsToLower e.message
  status = some (.num 429) || status = some (.num 500) || status = some (.num 503)
    || status = some (.str "UNAVAILABLE") || status = some (.str "RESOURCE_EXHAUSTED")
    || jsIncludes message "temporarily" || jsIncludes message "timeout"

/-- `isQuotaOrPermissionError`: permission/quota/billing signals. -/
def isQuotaOrPermissionError (e : JsError) : Bool :=
  let status := extractStatusCode e
  let message := jsToLower e.message
  status = some (.num 403) || status = some (.str "PERMISSION_DENIED")
    || status = some (.str "RESOURCE_EXHAUSTED")
    || jsIncludes message "quota" || jsIncludes message "billing"
    || jsIncludes message "permission"

/-- `isModelNotFound`: unknown/unsupported backend signals. -/
def isModelNotFound (e : JsError) : Bool :=
  let status := extractStatusCode e
  let message := jsToLower e.message
  status = some (.num 404) || status = some (.str "NOT_FOUND")
    || jsIncludes message "not found" || jsIncludes message "unsupported"

/-- `MAX_AI_RETRIES`. -/
def MAX_AI_RETRIES : Nat := 3

/-- `RETRY_BASE_DELAY_MS`. -/
def RETRY_BASE_DELAY_MS : Nat := 1200

/-- Decidable equality on `Except`, used to evaluate run traces on
concrete inputs. -/
instance {ε α : Type} [DecidableEq ε] [DecidableEq α] : DecidableEq (Except ε α) :=
  fun x y =>
    match x, y with
    | .ok a, .ok b =>
      if h : a = b then isTrue (by rw [h]) else isFalse (by simp [h])
    | .error a, .error b =>
      if h : a = b then isTrue (by rw [h]) else isFalse (by simp [h])
    | .ok _, .error _ => isFalse (by simp)
    | .error _, .ok _ => isFalse (by simp)

/-- Trace of one `callWithRetries` invocation: its final outcome (`.ok none`
is the unreachable fall-through `return undefined` of the JS loop), how many
calls it made, and the backoff sleeps it performed, in order. -/
structure RetryTrace (α : Type) where
  result : Except JsError (Option α)
  callCount : Nat
  sleeps : List Nat
deriving DecidableEq

/-- The `while (attempt < MAX_AI_RETRIES)` loop of `callWithRetries`:
`fn k` is the outcome of the `(k+1)`-st call. On a failure the attempt
counter advances; a non-retryable error or an exhausted ceiling is
rethrown, otherwise the loop sleeps `base * 2^(attempt-1)` and retries. -/
def callWithRetriesAux (fn : Nat → Except JsError α) :
    Nat → Nat → List Nat → RetryTrace α
  | 0, attemptIdx, sleeps => ⟨.ok none, attemptIdx, sleeps⟩
  | fuel+1, attemptIdx, sleeps =>
    match fn attemptIdx with
    | .ok v => ⟨.ok (some v), attemptIdx + 1, sleeps⟩
    | .error e =>
      let attempt := attemptIdx + 1
      if MAX_AI_RETRIES ≤ attempt || !isRetryableError e then ⟨.error e, attempt, sleeps⟩
      else callWithRetriesAux fn fuel attempt
        (sleeps ++ [RETRY_BASE_DELAY_MS * 2 ^ (attempt - 1)])

/-- `callWithRetries(fn)`. -/
def callWithRetries (fn : Nat → Except JsError α) : RetryTrace α :=
  callWithRetriesAux fn MAX_AI_RETRIES 0 []

/-- `shouldFallbackToNextModel`: only classified errors trigger trying the
next candidate. -/
def shouldFallbackToNextModel (e : JsError) : Bool :=
  isQuotaOrPermissionError e || isModelNotFound e || isRetryableError e

/-- `formatAggregateError` over the accumulated (model, message) pairs. -/
def formatAggregateError (errors : List (String × String)) : String :=
  match errors.getLast? with
  | none => "Unknown AI error."
  | some lastError =>
    let details := jsJoin " | " (errors.map (fun p => p.1 ++ ": " ++ p.2))
    "AI summarization failed. Details: " ++ details ++ ". Last error from "
      ++ lastError.1 ++ ": " ++ lastError.2

/-- A part of a response candidate's content (`part?.text`). -/
structure RespPart where
  text : Option String
deriving DecidableEq

/-- A response candidate (`candidate?.content?.parts`). -/
structure RespCandidate where
  parts : Option (List RespPart)
deriving DecidableEq

/-- A `generateContent` response: optional top-level text and optional
nested candidates. -/
structure GenResponse where
  text : Option String
  candidates : Option (List RespCandidate)
deriving DecidableEq

/-- `extractResponseText`: prefer a non-blank top-level `text`, otherwise
join every part text of every candidate with newlines and trim. -/
def extractResponseText (response : Option GenResponse) : String :=
  match response with
  | none => ""
  | some r =>
    let parts := ((r.candidates.getD []).map
      (fun c => (c.parts.getD []).filterMap RespPart.text)).flatten
    let fallback := jsTrim (jsJoin "\n" parts)
    match r.text with
    | some t => if jsTrim t ≠ "" then jsTrim t else fallback
    | none => fallback

/-- Message of the error thrown on an empty extracted summary. -/
def emptyResponseMessage : String := "Model returned an empty response."

/-- `error.message || 'Unknown error'`. -/
def messageOrUnknown (e : JsError) : String :=
  if e.message = "" then "Unknown error" else e.message

/-- The hint appended to the terminal single-model failure. -/
def failureHint (e : JsError) : String :=
  if isQuotaOrPermissionError e then
    "Check your Gemini API quota or select a different model with --model or GEMINI_MODEL."
  else
    "Make sure the Gemini model name is correct and your API key has access to it."

/-- The terminal error message thrown when the current candidate's failure
does not lead to a fallback. -/
def singleModelFailureMessage (modelName : String) (e : JsError) : String :=
  "Failed to generate summary with model " ++ modelName ++ ": "
    ++ messageOrUnknown e ++ ". " ++ failureHint e

/-- Outcome and trace of a `generateSummary` run: the summary and the name
of the model that produced it (`none` for the no-commits message) or the
thrown error's message, together with the provider calls made (one model
name per call, in order) and the backoff sleeps. -/
structure GenRun where
  outcome : Except String (String × Option String)
  callLog : List String
  sleeps : List Nat
deriving DecidableEq

/-- The provider environment of a run: per-model per-attempt outcomes of
`aiClient.models.generateContent`, and the (wall-clock dependent) text the
demo generator would produce, which no modelled claim depends on. -/
structure GenEnv where
  gen : String → Nat → Except JsError GenResponse
  demoText : String

/-- The suffix step on a successful summary:
`if (jiraTickets.length > 0 && !summary.includes(jiraTickets[0]))` append
the ticket line. -/
def appendJiraIfMissing (jiraTickets : List String) (summary : String) : String :=
  match jiraTickets with
  | [] => summary
  | t0 :: _ =>
    if !jsIncludes summary t0 then
      summary ++ "\n\nJira Tickets: " ++ jsJoin ", " jiraTickets
    else summary

/-- The `for` loop over `modelList` in `generateSummary`, carrying the
`errors` accumulator and the traces. On a caught error the candidate falls
through to the next model only when another remains and
`shouldFallbackToNextModel` holds; otherwise the single-model failure is
thrown. An exhausted loop would throw the aggregate error. -/
def generateLoop (env : GenEnv) (jiraTickets : List String) :
    List String → List (String × String) → List String → List Nat → GenRun
  | [], errors, log, sleeps => ⟨.error (formatAggregateError errors), log, sleeps⟩
  | modelName :: rest, errors, log, sleeps =>
    let tr := callWithRetries (env.gen modelName)
    let log1 := log ++ List.replicate tr.callCount modelName
    let sleeps1 := sleeps ++ tr.sleeps
    let handleCatch := fun (e : JsError) =>
      let errors1 := errors ++ [(modelName, messageOrUnknown e)]
      if rest ≠ [] && shouldFallbackToNextModel e then
        generateLoop env jiraTickets rest errors1 log1 sleeps1
      else
        ⟨.error (singleModelFailureMessage modelName e), log1, sleeps1⟩
    match tr.result with
    | .error e => handleCatch e
    | .ok respOpt =>
      let summary := extractResponseText respOpt
      if summary = "" then handleCatch (JsError.ofMessage emptyResponseMessage)
      else ⟨.ok (appendJiraIfMissing jiraTickets summary, some modelName), log1, sleeps1⟩

/-! ## Jira ticket extraction (the `/\b([A-Z]+-\d+)\b/g` scan) -/

/-- Right word-boundary check after a candidate match. -/
def rightBoundaryOk : List Char → Bool
  | [] => true
  | c :: _ => !isWordChar c

/-- Attempt of the pattern `[A-Z]+-\d+` with a trailing word boundary at
the current position: greedy uppercase run, a dash, greedy digit run.
Backtracking cannot help here (shrinking either run re-exposes a word
character), so the greedy attempt is exact. -/
def tryJira (l : List Char) : Option (List Char × List Char) :=
  let us := l.takeWhile isUpperAZ
  let r1 := l.dropWhile isUpperAZ
  let ds := r1.tail.takeWhile isDigitC
  let r3 := r1.tail.dropWhile isDigitC
  if us ≠ [] ∧ r1.head? = some '-' ∧ ds ≠ [] ∧ rightBoundaryOk r3 = true then
    some (us ++ '-' :: ds, r3)
  else none

/-- Global regex scan: `bd` records whether a match may start at the
current position (previous character is a non-word character or the string
start). After a match the scan resumes beyond it; the matched text ends in
a digit, so the next position never sits on a boundary. Fuel bounds the
scan length to keep the definition structural. -/
def scanJiraAux : Nat → Bool → List Char → List (List Char)
  | 0, _, _ => []
  | _, _, [] => []
  | fuel+1, bd, c :: rest =>
    if bd && isUpperAZ c then
      match tryJira (c :: rest) with
      | some (t, r) => t :: scanJiraAux fuel false r
      | none => scanJiraAux fuel (!isWordChar c) rest
    else scanJiraAux fuel (!isWordChar c) rest

/-- All matches of `/\b([A-Z]+-\d+)\b/g` over a message. -/
def scanJira (msg : String) : List String :=
  (scanJiraAux msg.data.length true msg.data).map (fun l => (⟨l⟩ : String))

/-- `extractJiraTickets`: the matches of every commit message, collected
into a `Set` and rendered as a sorted array. -/
def extractJiraTickets (commits : List CommitEntry) : List String :=
  sortStrings (dedupeStr (commits.flatMap (fun c => scanJira c.message)))

/-! Declarative transcription of the claimed pattern — "substrings matching
uppercase-letters, dash, digits, at word boundaries" — used to compare the
scanner's output against the specification's wording. -/

/-- Spec-side ticket shape: one or more uppercase letters, a dash, one or
more digits. -/
def TicketShape (t : List Char) : Prop :=
  ∃ us ds, t = us ++ '-' :: ds ∧ us ≠ [] ∧ ds ≠ []
    ∧ (∀ c ∈ us, isUpperAZ c = true) ∧ (∀ c ∈ ds, isDigitC c = true)

/-- Spec-side left word boundary: the character before the occurrence is a
non-word character, or the occurrence starts the scanned region (`bd`
telling whether the region's start is a boundary). -/
def LeftBd (bd : Bool) (pre : List Char) : Prop :=
  match pre.getLast? with
  | none => bd = true
  | some c => isWordChar c = false

/-- Spec-side right word boundary: end of input or a non-word character. -/
def RightBd (post : List Char) : Prop :=
  match post with
  | [] => True
  | c :: _ => isWordChar c = false

/-- Spec-side occurrence: `t` occurs in `l` with the claimed shape and
word boundaries on both sides. -/
def IsJiraAt (bd : Bool) (l t : List Char) : Prop :=
  ∃ pre post, l = pre ++ t ++ post ∧ TicketShape t ∧ LeftBd bd pre ∧ RightBd post

/-! ## `generateSummary` and the orchestrating `main` -/

/-- Fixed reply for an empty commit list. -/
def noCommitsMessage : String := "No commits found for the specified period."

/-- Error thrown when no client was initialized. -/
def noClientMessage : String :=
  "Gemini client is not initialized. Please provide a valid API key."

/-- Error thrown when the resolved candidate list is empty. -/
def noModelsMessage : String :=
  "No Gemini models are available. Set --model or GEMINI_MODEL to specify one."

/-- `generateSummary(commits)` given the resolved candidate list: the
no-commit, demo-mode and missing-client guards, then the candidate loop.
The prompt strings built by the source parameterize only the provider call
contents, which the environment models, so they are not reproduced. -/
def generateSummary (commits : List CommitEntry) (demoMode aiClientPresent : Bool)
    (modelList : List String) (env : GenEnv) : GenRun :=
  if commits = [] then ⟨.ok (noCommitsMessage, none), [], []⟩
  else if demoMode then ⟨.ok (env.demoText, some "demo"), [], []⟩
  else if !aiClientPresent then ⟨.error noClientMessage, [], []⟩
  else
    let jiraTickets := extractJiraTickets commits
    if modelList = [] then ⟨.error noModelsMessage, [], []⟩
    else generateLoop env jiraTickets modelList [] [] []

/-- Message of the fatal error thrown by `getCurrentBranch` and
`fetchCommits` when git reports that the target is not a repository. -/
def notARepoMessage : String :=
  "Not a Git repository. Please run this command from within a Git repository."

/-- Fallback message of `getCurrentBranch` for other failures. -/
def branchFailMessage : String := "Could not determine the current Git branch."

/-- ASCII apostrophe, spelled by code point. -/
def apostrophe : String := ⟨[Char.ofNat 39]⟩

/-- Message of the error thrown by `getGitUser` when `git config` fails
(this command runs in the process working directory, not the target path,
and fails when no `user.name`/`user.email` is configured there). -/
def userConfigMessage : String :=
  "Could not get Git user configuration. Make sure you" ++ apostrophe
    ++ "re in a Git repository and have configured user.name and user.email."

/-- The full external environment of one `main` run: git subprocess
results, model discovery, and generation outcomes. -/
structure MainEnv where
  gitUser : Except GitError (String × String)
  revParseHead : Except GitError String
  forEachRef : Except GitError String
  gitLog : String → Except GitError String
  catalog : CatalogEnv
  genEnv : GenEnv

/-- Run configuration distilled from flags and environment variables. -/
structure MainCfg where
  demoMode : Bool
  requestedModel : Option String
  recentBranchesCount : Nat

/-- `getCurrentBranch`: trimmed `rev-parse` output, or the fatal
not-a-repository error, or the generic branch failure. -/
def getCurrentBranch (revParseHead : Except GitError String) : Except String String :=
  match revParseHead with
  | .ok stdout => .ok (jsTrim stdout)
  | .error e =>
    if jsIncludes e.stderr "not a git repository" then .error notARepoMessage
    else .error branchFailMessage

/-- `getRecentLocalBranches`: parse the `for-each-ref` listing, keep the
ref names, drop blanks and the excluded branch, take the first `limit`; a
zero limit or any failure yields the empty list. -/
def getRecentLocalBranches (forEachRef : Except GitError String)
    (excludeBranch : String) (limit : Nat) : List String :=
  if limit = 0 then []
  else
    match forEachRef with
    | .error _ => []
    | .ok stdout =>
      if jsTrim stdout = "" then []
      else
        (((jsSplit (jsTrim stdout) "\n").map
            (fun line => (jsSplit line "|").headD "")).filter
          (fun branch => branch ≠ "" && branch ≠ excludeBranch)).take limit

/-- Terminal states of one `main` run. -/
inductive MainOutcome where
  | exitError (msg : String)
  | noCommits
  | demoDone (commits : List CommitEntry)
  | summarized (summary : String) (modelName : Option String)
deriving DecidableEq

/-- A `main` run's outcome plus the provider traffic it generated:
discovery calls made by the model catalog and `generateContent` calls made
by the generator. -/
structure MainResult where
  outcome : MainOutcome
  discoveryCalls : Nat
  genCalls : Nat
deriving DecidableEq

/-- The `main` pipeline: git user, current branch, recent branches, commit
aggregation, then — outside demo mode — model resolution and summary
generation. Any thrown error is caught and reported as a non-zero exit.
The catalog memo starts fresh each process. -/
def mainRun (cfg : MainCfg) (env : MainEnv) : MainResult :=
  match env.gitUser with
  | .error _ => ⟨.exitError userConfigMessage, 0, 0⟩
  | .ok _ =>
    match getCurrentBranch env.revParseHead with
    | .error msg => ⟨.exitError msg, 0, 0⟩
    | .ok currentBranch =>
      let extraBranches :=
        getRecentLocalBranches env.forEachRef currentBranch cfg.recentBranchesCount
      let branchesToScan := dedupeStr (currentBranch :: extraBranches)
      match fetchCommits env.gitLog branchesToScan with
      | .notARepo => ⟨.exitError notARepoMessage, 0, 0⟩
      | .ok commits =>
        if commits = [] then ⟨.noCommits, 0, 0⟩
        else if cfg.demoMode then ⟨.demoDone commits, 0, 0⟩
        else
          let (modelList, catSt) :=
            getResolvedModelPreference (!cfg.demoMode) cfg.requestedModel
              env.catalog freshCatalogState
          let run := generateSummary commits cfg.demoMode (!cfg.demoMode)
            modelList env.genEnv
          match run.outcome with
          | .ok (summary, modelName) =>
            ⟨.summarized summary modelName, catSt.discoveryCalls, run.callLog.length⟩
          | .error msg => ⟨.exitError msg, catSt.discoveryCalls, run.callLog.length⟩

/-! ## Concrete instances used by witnesses and counterexamples -/

/-- A retryable provider error (HTTP 503). -/
def err503 : JsError := ⟨some (.num 503), none, none, none, "Service unavailable"⟩

/-- A not-found provider error (HTTP 404). -/
def err404 : JsError := ⟨some (.num 404), none, none, none, "Model not found"⟩

/-- An unclassified provider error: no status, message matching none of the
classifier substrings. -/
def errOther : JsError := ⟨none, none, none, none, "boom"⟩

/-- A response whose extracted text is non-empty. -/
def respOkC : GenResponse := ⟨some "Yesterday, I shipped the login flow.", none⟩

/-- A response with a blank top-level text and no candidates: its extracted
text is empty. -/
def respEmptyC : GenResponse := ⟨some "", none⟩

/-- Call outcomes failing retryably twice, then succeeding. -/
def fnThirdOk : Nat → Except JsError GenResponse :=
  fun k => if k < 2 then .error err503 else .ok respOkC

/-- Call outcomes always failing retryably. -/
def fnAllFail : Nat → Except JsError GenResponse := fun _ => .error err503

/-- A one-commit list used in generation witnesses. -/
def commitsC : List CommitEntry :=
  [⟨"feat: add login flow", "2024-05-01", "h1", ["main"]⟩]

/-- Environment where `model-a` fails retryably twice then succeeds, and
any other model would fail retryably. -/
def envThirdOk : GenEnv :=
  ⟨fun m k => if m = "model-a" then fnThirdOk k else .error err503, "demo"⟩

/-- Environment where the first model immediately yields an empty-text
response while a second model would succeed. -/
def envEmptyFirst : GenEnv :=
  ⟨fun m _ => if m = "model-a" then .ok respEmptyC else .ok respOkC, "demo"⟩

/-- Environment where the first model yields an unclassified error while a
second model would succeed. -/
def envOtherFirst : GenEnv :=
  ⟨fun m _ => if m = "model-a" then .error errOther else .ok respOkC, "demo"⟩

/-- Environment where every model fails with a not-found error. -/
def envAll404 : GenEnv := ⟨fun _ _ => .error err404, "demo"⟩

/-- stdout of a one-commit `git log` (hash `h1`, subject `feat: one`). -/
def stdoutB1 : String := "h1\nd1\nfeat: one\n\n---COMMIT_SEPARATOR---\n"

/-- The commit entry parsed from `stdoutB1` when scanned on branch `b1`
(the trailing separator of the last block survives in the body, as in the
source, whose display layer filters it out). -/
def entryB1 : CommitEntry :=
  ⟨"feat: one\n\n---COMMIT_SEPARATOR---", "d1", "h1", ["b1"]⟩

/-- Git environment where branch `b1` has one commit and every other
branch query dies with a generic transport error. -/
def gitLogC2 : String → Except GitError String := fun b =>
  if b = "b1" then .ok stdoutB1
  else .error ⟨"error: connection reset by peer"⟩

/-- stderr of git's not-a-repository failure. -/
def notARepoStderr : GitError :=
  ⟨"fatal: not a git repository (or any of the parent directories): .git"⟩

/-- A `main` environment for an invalid target path whose author-identity
lookup (run in the process directory, not the target) also fails: no
`user.name` is configured anywhere. -/
def mainEnvNoUser : MainEnv :=
  ⟨.error ⟨""⟩, .error notARepoStderr, .error notARepoStderr,
   fun _ => .error notARepoStderr, ⟨.ok [some "gemini-1.5-flash"]⟩,
   ⟨fun _ _ => .ok respOkC, "demo"⟩⟩

/-- A `main` environment for an invalid target path with a configured git
user. -/
def mainEnvInvalidTarget : MainEnv :=
  ⟨.ok ("Jo Dev", "jo@example.com"), .error notARepoStderr, .error notARepoStderr,
   fun _ => .error notARepoStderr, ⟨.ok [some "gemini-1.5-flash"]⟩,
   ⟨fun _ _ => .ok respOkC, "demo"⟩⟩

/-- Default run configuration: no demo mode, no model override, default
branch-scan count. -/
def mainCfgC : MainCfg := ⟨false, none, 3⟩

/-- A one-commit list whose message references the Jira ticket `AB-1`. -/
def commitsJ : List CommitEntry :=
  [⟨"fix: AB-1 resolved", "2024-05-01", "h1", ["main"]⟩]

/-- A response whose text does not mention any ticket. -/
def respPlain : GenResponse := ⟨some "Fixed the reported bug.", none⟩

/-- Environment succeeding immediately with `respPlain`. -/
def envPlain : GenEnv := ⟨fun _ _ => .ok respPlain, "demo"⟩

/-- `git log` stdout of branch `alpha`: the single shared commit `h1`. -/
def stdoutAlpha : String := "h1\nd1\nfeat: shared\n\n---COMMIT_SEPARATOR---\n"

/-- `git log` stdout of branch `beta`: a private commit `h2` followed by
the shared commit `h1`. -/
def stdoutBeta : String :=
  "h2\nd2\nfix: beta only\n\n---COMMIT_SEPARATOR---\nh1\nd1\nfeat: shared\n\n---COMMIT_SEPARATOR---\n"

/-- Git environment with the shared commit `h1` reachable on branches
`alpha` and `beta`. -/
def gitLogC1 : String → Except GitError String := fun b =>
  if b = "alpha" then .ok stdoutAlpha
  else if b = "beta" then .ok stdoutBeta
  else .error ⟨""⟩

/-! # Theorems

First a small theory of the modelled JS string order, then the claims. -/

theorem charListLe_total : ∀ a b : List Char, charListLe a b = true ∨ charListLe b a = true
  | [], _ => by left; cases ‹List Char› <;> rfl
  | _ :: _, [] => by right; rfl
  | a :: as, b :: bs => by
    by_cases h1 : a.toNat < b.toNat
    · left; simp [charListLe, h1]
    · by_cases h2 : b.toNat < a.toNat
      · right; simp [charListLe, h1, h2]
      · rcases charListLe_total as bs with h | h
        · left; simp [charListLe, h1, h2, h]
        · right; simp [charListLe, h1, h2, h]

theorem charListLe_antisymm :
    ∀ a b : List Char, charListLe a b = true → charListLe b a = true → a = b
  | [], [], _, _ => rfl
  | [], _ :: _, _, h => by simp [charListLe] at h
  | _ :: _, [], h, _ => by simp [charListLe] at h
  | a :: as, b :: bs, hab, hba => by
    by_cases h1 : a.toNat < b.toNat
    · simp [charListLe, h1, Nat.lt_asymm h1] at hba
    · by_cases h2 : b.toNat < a.toNat
      · simp [charListLe, h1, h2] at hab
      · simp [charListLe, h1, h2] at hab hba
        have hn : a.toNat = b.toNat :=
          Nat.le_antisymm (Nat.le_of_not_lt h2) (Nat.le_of_not_lt h1)
        have hc : a = b := Char.eq_of_val_eq (UInt32.toNat.inj hn)
        rw [hc, charListLe_antisymm as bs hab hba]

theorem strLe_total (a b : String) : strLe a b = true ∨ strLe b a = true :=
  charListLe_total a.data b.data

theorem strLe_antisymm {a b : String} (hab : strLe a b = true) (hba : strLe b a = true) :
    a = b := by
  cases a; cases b
  exact congrArg String.mk (charListLe_antisymm _ _ hab hba)

/-- The sorted rendering of a two-element branch set does not depend on the
order of the two sightings. -/
theorem sortStrings_pair_comm (a b : String) :
    sortStrings [b, a] = sortStrings [a, b] := by
  by_cases hab : strLe a b = true
  · by_cases hba : strLe b a = true
    · rw [strLe_antisymm hab hba]
    · simp [sortStrings, insSorted, hab, hba]
  · rcases strLe_total a b with h | h
    · exact absurd h hab
    · simp [sortStrings, insSorted, hab, h]

/-- C4: on the discovery outcome
`["gemini-1.5-flash", "gemini-2.5-flash-preview", "gemini-2.5-pro"]` the
resolved candidate list is exactly `["gemini-1.5-flash"]`: the
preview-marked variant is excluded, and `gemini-1.5-flash` ranks strictly
above `gemini-2.5-pro` (which the flash filter drops from the list
entirely, so every position it could take is below the last list index). -/
theorem claim_C4_resolved_preference :
    (getResolvedModelPreference true none
        ⟨.ok [some "gemini-1.5-flash", some "gemini-2.5-flash-preview",
              some "gemini-2.5-pro"]⟩ freshCatalogState).1
      = ["gemini-1.5-flash"]
    ∧ "gemini-2.5-flash-preview" ∉
        (getResolvedModelPreference true none
          ⟨.ok [some "gemini-1.5-flash", some "gemini-2.5-flash-preview",
                some "gemini-2.5-pro"]⟩ freshCatalogState).1
    ∧ "gemini-1.5-flash" ∈
        (getResolvedModelPreference true none
          ⟨.ok [some "gemini-1.5-flash", some "gemini-2.5-flash-preview",
                some "gemini-2.5-pro"]⟩ freshCatalogState).1
    ∧ List.indexOf "gemini-1.5-flash"
        (getResolvedModelPreference true none
          ⟨.ok [some "gemini-1.5-flash", some "gemini-2.5-flash-preview",
                some "gemini-2.5-pro"]⟩ freshCatalogState).1
      < List.indexOf "gemini-2.5-pro"
        (getResolvedModelPreference true none
          ⟨.ok [some "gemini-1.5-flash", some "gemini-2.5-flash-preview",
                some "gemini-2.5-pro"]⟩ freshCatalogState).1 := by
  refine ⟨by decide, by decide, by decide, by decide⟩

/-- A populated resolution memo makes `getResolvedModelPreference` a
no-op returning the memoized list. -/
theorem getResolvedModelPreference_fixed (client : Bool) (req : Option String)
    (env : CatalogEnv) (st : CatalogState) (l : List String)
    (h : st.resolvedMemo = some l) :
    getResolvedModelPreference client req env st = (l, st) := by
  unfold getResolvedModelPreference
  rw [h]

/-- The first resolution populates the memo with its own result. -/
theorem resolvedMemo_after_first (client : Bool) (req : Option String)
    (env : CatalogEnv) (st : CatalogState) (h : st.resolvedMemo = none) :
    ((getResolvedModelPreference client req env st).2).resolvedMemo
      = some (getResolvedModelPreference client req env st).1 := by
  unfold getResolvedModelPreference
  rw [h]
  cases req with
  | some m => rfl
  | none =>
    cases hA : getAvailableModelInfo client env st with
    | mk info st1 =>
      cases info with
      | none => simp
      | some simpleNames =>
        by_cases hs : simpleNames = [] <;> simp [hs]

/-- Starting from the fresh process state, the first resolution performs at
most one discovery call. -/
theorem discoveryCalls_after_first (client : Bool) (req : Option String)
    (env : CatalogEnv) :
    ((getResolvedModelPreference client req env freshCatalogState).2).discoveryCalls ≤ 1 := by
  unfold getResolvedModelPreference freshCatalogState
  cases req with
  | some m => simp
  | none =>
    cases client with
    | false => simp [getAvailableModelInfo]
    | true =>
      cases hd : env.discovery with
      | error e =>
        simp [getAvailableModelInfo, loadAvailableModelInfo, hd]
      | ok names =>
        simp [getAvailableModelInfo, loadAvailableModelInfo, hd]
        split <;> simp

/-- Once the memo is populated, any number of further invocations return
the memoized list and leave the state untouched. -/
theorem resolveIter_fixed (client : Bool) (req : Option String) (env : CatalogEnv) :
    ∀ (n : Nat) (st : CatalogState) (l : List String),
      st.resolvedMemo = some l →
      resolveIter client req env n st = (List.replicate n l, st)
  | 0, st, l, _ => rfl
  | n+1, st, l, h => by
    unfold resolveIter
    simp [getResolvedModelPreference_fixed client req env st l h,
          resolveIter_fixed client req env n st l h, List.replicate_succ]

/-- C8: across any number of resolution invocations in one process run,
discovery executes at most once; every invocation returns the list computed
by the first one, and after the first invocation the state never changes
again. -/
theorem claim_C8_resolution_memoized (client : Bool) (req : Option String)
    (env : CatalogEnv) (n : Nat) :
    ((resolveIter client req env (n+1) freshCatalogState).2).discoveryCalls ≤ 1
    ∧ (resolveIter client req env (n+1) freshCatalogState).1
        = List.replicate (n+1)
            (getResolvedModelPreference client req env freshCatalogState).1
    ∧ (resolveIter client req env (n+1) freshCatalogState).2
        = (getResolvedModelPreference client req env freshCatalogState).2 := by
  rcases hres : getResolvedModelPreference client req env freshCatalogState with ⟨r1, s1⟩
  have hmemo : s1.resolvedMemo = some r1 := by
    have h := resolvedMemo_after_first client req env freshCatalogState rfl
    rw [hres] at h
    exact h
  have hcalls : s1.discoveryCalls ≤ 1 := by
    have h := discoveryCalls_after_first client req env
    rw [hres] at h
    exact h
  have hiter := resolveIter_fixed client req env n s1 r1 hmemo
  unfold resolveIter
  rw [hres]
  refine ⟨?_, ?_, ?_⟩ <;> simp [hiter, hcalls, List.replicate_succ]

/-- With retryable failures on the first two calls and a failure on the
third, `callWithRetries` makes exactly 3 calls with backoff sleeps of
1200ms then 2400ms and rethrows the third error. -/
theorem callWithRetries_allFail {α : Type} (fn : Nat → Except JsError α)
    (e0 e1 e2 : JsError) (h0 : fn 0 = .error e0) (h1 : fn 1 = .error e1)
    (h2 : fn 2 = .error e2) (r0 : isRetryableError e0 = true)
    (r1 : isRetryableError e1 = true) :
    callWithRetries fn = ⟨.error e2, 3, [1200, 2400]⟩ := by
  simp [callWithRetries, callWithRetriesAux, h0, h1, h2, r0, r1,
    MAX_AI_RETRIES, RETRY_BASE_DELAY_MS]

/-- With retryable failures on the first two calls and success on the
third, `callWithRetries` makes exactly 3 calls with sleeps 1200ms and
2400ms and returns the third call's value. -/
theorem callWithRetries_thirdSuccess {α : Type} (fn : Nat → Except JsError α)
    (e0 e1 : JsError) (v : α) (h0 : fn 0 = .error e0) (h1 : fn 1 = .error e1)
    (h2 : fn 2 = .ok v) (r0 : isRetryableError e0 = true)
    (r1 : isRetryableError e1 = true) :
    callWithRetries fn = ⟨.ok (some v), 3, [1200, 2400]⟩ := by
  simp [callWithRetries, callWithRetriesAux, h0, h1, h2, r0, r1,
    MAX_AI_RETRIES, RETRY_BASE_DELAY_MS]

/-- A candidate whose three attempts all fail retryably contributes exactly
3 calls and the sleeps 1200ms, 2400ms, then the loop advances to the
remaining candidates with the final error recorded. -/
theorem generateLoop_retryExhausted_advances (env : GenEnv) (jira : List String)
    (m : String) (rest : List String) (hrest : rest ≠ [])
    (errors : List (String × String)) (log : List String) (sleeps : List Nat)
    (e0 e1 e2 : JsError) (h0 : env.gen m 0 = .error e0)
    (h1 : env.gen m 1 = .error e1) (h2 : env.gen m 2 = .error e2)
    (r0 : isRetryableError e0 = true) (r1 : isRetryableError e1 = true)
    (r2 : isRetryableError e2 = true) :
    generateLoop env jira (m :: rest) errors log sleeps
      = generateLoop env jira rest (errors ++ [(m, messageOrUnknown e2)])
          (log ++ [m, m, m]) (sleeps ++ [1200, 2400]) := by
  rw [generateLoop]
  rw [callWithRetries_allFail (env.gen m) e0 e1 e2 h0 h1 h2 r0 r1]
  simp [hrest, shouldFallbackToNextModel, r2, List.replicate]

/-- With retryable failures on the first candidate's attempts 1 and 2 and a
success with non-empty text on attempt 3, `generateSummary` returns that
candidate's result after exactly its 3 calls — no other candidate is ever
contacted — with strictly increasing backoff sleeps. -/
theorem generateSummary_thirdAttemptSuccess (commits : List CommitEntry)
    (hc : commits ≠ []) (m1 : String) (rest : List String) (env : GenEnv)
    (e0 e1 : JsError) (resp : GenResponse) (h0 : env.gen m1 0 = .error e0)
    (h1 : env.gen m1 1 = .error e1) (h2 : env.gen m1 2 = .ok resp)
    (r0 : isRetryableError e0 = true) (r1 : isRetryableError e1 = true)
    (hne : extractResponseText (some resp) ≠ "") :
    generateSummary commits false true (m1 :: rest) env
      = ⟨.ok (appendJiraIfMissing (extractJiraTickets commits)
                (extractResponseText (some resp)), some m1),
         [m1, m1, m1], [1200, 2400]⟩ := by
  rw [generateSummary]
  simp only [hc, if_neg, Bool.false_eq_true, if_false, reduceIte]
  rw [generateLoop]
  rw [callWithRetries_thirdSuccess (env.gen m1) e0 e1 resp h0 h1 h2 r0 r1]
  simp [hne, List.replicate]

/-- C5: (1) a candidate whose calls keep failing retryably is attempted
exactly 3 times, with inter-attempt delays 1200ms then 2400ms
(`1200·2^0`, `1200·2^1`, strictly increasing), after which the loop
advances past it; (2) when attempts 1 and 2 fail retryably and attempt 3
succeeds, `generateSummary` returns that first candidate's result with
exactly those 3 calls in its log — later candidates are never contacted. -/
theorem claim_C5_retry_backoff_and_third_attempt_success :
    (∀ {α : Type} (fn : Nat → Except JsError α) (e0 e1 e2 : JsError),
      fn 0 = .error e0 → fn 1 = .error e1 → fn 2 = .error e2 →
      isRetryableError e0 = true → isRetryableError e1 = true →
      callWithRetries fn = ⟨.error e2, 3, [1200, 2400]⟩ ∧ (1200:Nat) < 2400)
    ∧ (∀ (env : GenEnv) (jira : List String) (m : String) (rest : List String),
      rest ≠ [] →
      ∀ (errors : List (String × String)) (log : List String) (sleeps : List Nat)
        (e0 e1 e2 : JsError),
      env.gen m 0 = .error e0 → env.gen m 1 = .error e1 → env.gen m 2 = .error e2 →
      isRetryableError e0 = true → isRetryableError e1 = true →
      isRetryableError e2 = true →
      generateLoop env jira (m :: rest) errors log sleeps
        = generateLoop env jira rest (errors ++ [(m, messageOrUnknown e2)])
            (log ++ [m, m, m]) (sleeps ++ [1200, 2400]))
    ∧ (∀ (commits : List CommitEntry), commits ≠ [] →
      ∀ (m1 : String) (rest : List String) (env : GenEnv) (e0 e1 : JsError)
        (resp : GenResponse),
      env.gen m1 0 = .error e0 → env.gen m1 1 = .error e1 → env.gen m1 2 = .ok resp →
      isRetryableError e0 = true → isRetryableError e1 = true →
      extractResponseText (some resp) ≠ "" →
      generateSummary commits false true (m1 :: rest) env
        = ⟨.ok (appendJiraIfMissing (extractJiraTickets commits)
                  (extractResponseText (some resp)), some m1),
           [m1, m1, m1], [1200, 2400]⟩) :=
  ⟨fun fn e0 e1 e2 h0 h1 h2 r0 r1 =>
      ⟨callWithRetries_allFail fn e0 e1 e2 h0 h1 h2 r0 r1, by decide⟩,
   fun env jira m rest hrest errors log sleeps e0 e1 e2 h0 h1 h2 r0 r1 r2 =>
      generateLoop_retryExhausted_advances env jira m rest hrest errors log sleeps
        e0 e1 e2 h0 h1 h2 r0 r1 r2,
   fun commits hc m1 rest env e0 e1 resp h0 h1 h2 r0 r1 hne =>
      generateSummary_thirdAttemptSuccess commits hc m1 rest env e0 e1 resp
        h0 h1 h2 r0 r1 hne⟩

/-- Witness for C5 at concrete inputs: the all-fail retry trace of
`fnAllFail` and the third-attempt-success run of `envThirdOk`. -/
theorem claim_C5_witness :
    (callWithRetries fnAllFail = ⟨.error err503, 3, [1200, 2400]⟩ ∧ (1200:Nat) < 2400)
    ∧ generateSummary commitsC false true ["model-a", "model-b"] envThirdOk
        = ⟨.ok ("Yesterday, I shipped the login flow.", some "model-a"),
           ["model-a", "model-a", "model-a"], [1200, 2400]⟩ :=
  ⟨claim_C5_retry_backoff_and_third_attempt_success.1 fnAllFail err503 err503 err503
      rfl rfl rfl (by decide) (by decide),
   by
    have h := claim_C5_retry_backoff_and_third_attempt_success.2.2 commitsC (by decide)
      "model-a" ["model-b"] envThirdOk err503 err503 respOkC rfl rfl rfl
      (by decide) (by decide) (by decide)
    rw [h]
    decide⟩

/-- A first-call success makes `callWithRetries` return after exactly one
call and no sleep. -/
theorem callWithRetries_firstSuccess {α : Type} (fn : Nat → Except JsError α)
    (v : α) (h0 : fn 0 = .ok v) :
    callWithRetries fn = ⟨.ok (some v), 1, []⟩ := by
  simp [callWithRetries, callWithRetriesAux, h0, MAX_AI_RETRIES]

/-- A non-retryable first-call failure is rethrown after exactly one call
and no sleep. -/
theorem callWithRetries_firstNonRetryable {α : Type} (fn : Nat → Except JsError α)
    (e : JsError) (h0 : fn 0 = .error e) (hr : isRetryableError e = false) :
    callWithRetries fn = ⟨.error e, 1, []⟩ := by
  simp [callWithRetries, callWithRetriesAux, h0, hr, MAX_AI_RETRIES]

/-- C6 counterexample: with two candidates, an empty-text response (and,
separately, an unclassified error) on the first candidate terminates the
run with the single-model failure after one call — the second candidate is
never contacted, contradicting the claimed advancement. -/
theorem claim_C6_counterexample :
    generateSummary commitsC false true ["model-a", "model-b"] envEmptyFirst
      = ⟨.error (singleModelFailureMessage "model-a"
            (JsError.ofMessage emptyResponseMessage)), ["model-a"], []⟩
    ∧ generateSummary commitsC false true ["model-a", "model-b"] envOtherFirst
      = ⟨.error (singleModelFailureMessage "model-a" errOther), ["model-a"], []⟩
    ∧ "model-b" ∉ (generateSummary commitsC false true ["model-a", "model-b"]
        envEmptyFirst).callLog := by
  refine ⟨by decide, by decide, by decide⟩

/-- C6 amended: a candidate whose failure is of the Other kind — an
unclassified thrown error, or a successful call whose extracted text is
empty — is recorded after exactly one call (no same-candidate retry), but
the run terminates with the single-model failure naming that candidate even
when further candidates remain; no advancement happens. -/
theorem claim_C6_other_kind_terminates :
    (∀ (commits : List CommitEntry), commits ≠ [] →
      ∀ (m1 : String) (rest : List String) (env : GenEnv) (e : JsError),
      env.gen m1 0 = .error e → isRetryableError e = false →
      isQuotaOrPermissionError e = false → isModelNotFound e = false →
      generateSummary commits false true (m1 :: rest) env
        = ⟨.error (singleModelFailureMessage m1 e), [m1], []⟩)
    ∧ (∀ (commits : List CommitEntry), commits ≠ [] →
      ∀ (m1 : String) (rest : List String) (env : GenEnv) (resp : GenResponse),
      env.gen m1 0 = .ok resp → extractResponseText (some resp) = "" →
      generateSummary commits false true (m1 :: rest) env
        = ⟨.error (singleModelFailureMessage m1
              (JsError.ofMessage emptyResponseMessage)), [m1], []⟩) := by
  constructor
  · intro commits hc m1 rest env e h0 hr hq hn
    rw [generateSummary]
    simp only [hc, reduceIte]
    rw [generateLoop]
    rw [callWithRetries_firstNonRetryable (env.gen m1) e h0 hr]
    simp [shouldFallbackToNextModel, hr, hq, hn, List.replicate]
  · intro commits hc m1 rest env resp h0 hext
    rw [generateSummary]
    simp only [hc, reduceIte]
    rw [generateLoop]
    rw [callWithRetries_firstSuccess (env.gen m1) resp h0]
    simp [hext, shouldFallbackToNextModel, List.replicate,
      show isRetryableError (JsError.ofMessage emptyResponseMessage) = false by decide,
      show isQuotaOrPermissionError (JsError.ofMessage emptyResponseMessage) = false by decide,
      show isModelNotFound (JsError.ofMessage emptyResponseMessage) = false by decide]

/-- Witness for the amended C6 at the concrete two-candidate runs. -/
theorem claim_C6_witness :
    generateSummary commitsC false true ["model-a", "model-b"] envOtherFirst
      = ⟨.error (singleModelFailureMessage "model-a" errOther), ["model-a"], []⟩
    ∧ generateSummary commitsC false true ["model-a", "model-b"] envEmptyFirst
      = ⟨.error (singleModelFailureMessage "model-a"
            (JsError.ofMessage emptyResponseMessage)), ["model-a"], []⟩ :=
  ⟨claim_C6_other_kind_terminates.1 commitsC (by decide) "model-a" ["model-b"]
      envOtherFirst errOther rfl (by decide) (by decide) (by decide),
   claim_C6_other_kind_terminates.2 commitsC (by decide) "model-a" ["model-b"]
      envEmptyFirst respEmptyC rfl (by decide)⟩

theorem strAppend_data (a b : String) : (a ++ b).data = a.data ++ b.data := by
  cases a
  cases b
  rfl

/-- When every call fails, `callWithRetries` rethrows one of the first
three errors. -/
theorem callWithRetries_allError {α : Type} (fn : Nat → Except JsError α)
    (e0 e1 e2 : JsError) (h0 : fn 0 = .error e0) (h1 : fn 1 = .error e1)
    (h2 : fn 2 = .error e2) :
    ∃ e, (callWithRetries fn).result = .error e := by
  by_cases r0 : isRetryableError e0 = true
  · by_cases r1 : isRetryableError e1 = true
    · exact ⟨e2, by rw [callWithRetries_allFail fn e0 e1 e2 h0 h1 h2 r0 r1]⟩
    · have r1f : isRetryableError e1 = false := by simpa using r1
      refine ⟨e1, ?_⟩
      simp [callWithRetries, callWithRetriesAux, h0, h1, r0, r1f,
        MAX_AI_RETRIES, RETRY_BASE_DELAY_MS]
  · have r0f : isRetryableError e0 = false := by simpa using r0
    exact ⟨e0, by rw [callWithRetries_firstNonRetryable fn e0 h0 r0f]⟩

/-- When every provider call fails, the candidate loop terminates with the
single-model failure of some candidate in the list — the aggregate branch
after the loop is never reached. -/
theorem generateLoop_allErrors_single (env : GenEnv)
    (errFn : String → Nat → JsError)
    (hall : ∀ m k, env.gen m k = .error (errFn m k)) :
    ∀ (models : List String), models ≠ [] →
    ∀ (jira : List String) (errors : List (String × String))
      (log : List String) (sleeps : List Nat),
    ∃ m e, m ∈ models ∧
      (generateLoop env jira models errors log sleeps).outcome
        = .error (singleModelFailureMessage m e)
  | [], hne => absurd rfl hne
  | m :: rest, _ => by
    intro jira errors log sleeps
    obtain ⟨e, he⟩ := callWithRetries_allError (env.gen m)
      (errFn m 0) (errFn m 1) (errFn m 2) (hall m 0) (hall m 1) (hall m 2)
    rw [generateLoop]
    rcases htr : callWithRetries (env.gen m) with ⟨res, cnt, slps⟩
    rw [htr] at he
    simp only at he
    subst he
    by_cases hr : rest = []
    · subst hr
      exact ⟨m, e, by simp, by simp⟩
    · by_cases hs : shouldFallbackToNextModel e = true
      · obtain ⟨m2, e2, hm2, hout⟩ := generateLoop_allErrors_single env errFn hall rest hr
          jira (errors ++ [(m, messageOrUnknown e)])
          (log ++ List.replicate cnt m) (sleeps ++ slps)
        exact ⟨m2, e2, List.mem_cons_of_mem m hm2, by simp [hr, hs, hout]⟩
      · refine ⟨m, e, List.mem_cons_self m rest, ?_⟩
        simp [hr, hs]

/-- `generateSummary` version of `generateLoop_allErrors_single`. -/
theorem generateSummary_allErrors_single (env : GenEnv)
    (errFn : String → Nat → JsError)
    (hall : ∀ m k, env.gen m k = .error (errFn m k))
    (commits : List CommitEntry) (hc : commits ≠ [])
    (models : List String) (hm : models ≠ []) :
    ∃ m e, m ∈ models ∧
      (generateSummary commits false true models env).outcome
        = .error (singleModelFailureMessage m e) := by
  obtain ⟨m, e, hmem, hout⟩ := generateLoop_allErrors_single env errFn hall models hm
    (extractJiraTickets commits) [] [] []
  refine ⟨m, e, hmem, ?_⟩
  rw [generateSummary]
  simp only [hc, hm, reduceIte]
  exact hout

/-- The single-model failure text never coincides with an aggregate
failure text (their first characters differ). -/
theorem singleModel_ne_aggregate (m : String) (e : JsError)
    (errors : List (String × String)) :
    singleModelFailureMessage m e ≠ formatAggregateError errors := by
  intro h
  have hF : "Failed to generate summary with model ".data
      = 'F' :: "ailed to generate summary with model ".data := by decide
  have hU : "Unknown AI error.".data = 'U' :: "nknown AI error.".data := by decide
  have hA : "AI summarization failed. Details: ".data
      = 'A' :: "I summarization failed. Details: ".data := by decide
  have h1 : (singleModelFailureMessage m e).data.head? = some 'F' := by
    simp [singleModelFailureMessage, strAppend_data, hF]
  have h2 : (formatAggregateError errors).data.head? = some 'U'
      ∨ (formatAggregateError errors).data.head? = some 'A' := by
    unfold formatAggregateError
    cases errors.getLast? with
    | none => left; rw [hU]; rfl
    | some p => right; simp [strAppend_data, hA]
  rw [h] at h1
  rcases h2 with h2 | h2 <;> rw [h1] at h2 <;> simp at h2

/-- C7 counterexample: with two candidates both failing with not-found
errors (so the whole candidate list is exhausted), the raised error is the
single-model failure of the *last* candidate — not the aggregate failure
listing both attempts that the claim requires. -/
theorem claim_C7_counterexample :
    generateSummary commitsC false true ["model-a", "model-b"] envAll404
      = ⟨.error (singleModelFailureMessage "model-b" err404),
         ["model-a", "model-b"], []⟩
    ∧ singleModelFailureMessage "model-b" err404
      ≠ formatAggregateError
          [("model-a", "Model not found"), ("model-b", "Model not found")] := by
  refine ⟨by decide, by decide⟩

/-- C7 amended: when the candidate list is non-empty and every provider
call fails, the run terminates with a single-model failure naming one of
the attempted candidates (the one at which iteration stopped); the
aggregate failure listing every candidate is unreachable — its text never
equals the raised one. -/
theorem claim_C7_no_aggregate_failure :
    (∀ (env : GenEnv) (errFn : String → Nat → JsError),
      (∀ m k, env.gen m k = .error (errFn m k)) →
      ∀ (commits : List CommitEntry), commits ≠ [] →
      ∀ (models : List String), models ≠ [] →
      ∃ m e, m ∈ models ∧
        (generateSummary commits false true models env).outcome
          = .error (singleModelFailureMessage m e))
    ∧ (∀ (m : String) (e : JsError) (errors : List (String × String)),
        singleModelFailureMessage m e ≠ formatAggregateError errors) :=
  ⟨fun env errFn hall commits hc models hm =>
      generateSummary_allErrors_single env errFn hall commits hc models hm,
   singleModel_ne_aggregate⟩

/-- Witness for the amended C7 at the concrete all-404 environment. -/
theorem claim_C7_witness :
    (∃ m e, m ∈ ["model-a", "model-b"] ∧
      (generateSummary commitsC false true ["model-a", "model-b"] envAll404).outcome
        = .error (singleModelFailureMessage m e))
    ∧ singleModelFailureMessage "model-b" err404
      ≠ formatAggregateError [("model-a", "Model not found")] :=
  ⟨claim_C7_no_aggregate_failure.1 envAll404 (fun _ _ => err404)
      (fun _ _ => rfl) commitsC (by decide) ["model-a", "model-b"] (by decide),
   claim_C7_no_aggregate_failure.2 "model-b" err404 [("model-a", "Model not found")]⟩

/-- A generic per-branch failure (not an unknown revision) aborts the
branch loop by rethrowing, no matter how many branches were already
scanned successfully or skipped. -/
theorem fetchCommitsLoop_abort (gitLog : String → Except GitError String)
    (b : String) (e : GitError) (hb : gitLog b = .error e)
    (hu : jsIncludes e.stderr unknownRevisionMarker = false) :
    ∀ (pre : List String),
      (∀ p ∈ pre, (∃ s, gitLog p = .ok s) ∨
        ∃ e2, gitLog p = .error e2 ∧ jsIncludes e2.stderr unknownRevisionMarker = true) →
    ∀ (post : List String) (acc : List CommitEntry),
      fetchCommitsLoop gitLog (pre ++ b :: post) acc = .error e
  | [], _, post, acc => by simp [fetchCommitsLoop, hb, hu]
  | p :: pre, hpre, post, acc => by
    rcases hpre p (List.mem_cons_self p pre) with ⟨s, hs⟩ | ⟨e2, he2, hu2⟩
    · rw [List.cons_append, fetchCommitsLoop, hs]
      exact fetchCommitsLoop_abort gitLog b e hb hu pre
        (fun q hq => hpre q (List.mem_cons_of_mem p hq)) post _
    · rw [List.cons_append, fetchCommitsLoop, he2]
      simp only [hu2, if_true, reduceIte]
      exact fetchCommitsLoop_abort gitLog b e hb hu pre
        (fun q hq => hpre q (List.mem_cons_of_mem p hq)) post acc

/-- C2 counterexample: with branch `b1` holding one commit and branch `b2`
dying with a generic transport error, scanning `[b1, b2]` yields the empty
commit list even though scanning `[b1]` alone yields `b1`'s commit — the
already-collected commit is discarded, not preserved. -/
theorem claim_C2_counterexample :
    fetchCommits gitLogC2 ["b1", "b2"] = .ok []
    ∧ fetchCommits gitLogC2 ["b1"] = .ok [entryB1] := by
  refine ⟨by decide, by decide⟩

/-- C2 amended: only a branch failure marked "unknown revision or path" is
skipped with the scan continuing; a per-branch failure with any other
stderr (and not the fatal not-a-repository one) aborts the remaining scan
and makes the whole aggregation return the empty commit list, discarding
commits already collected from earlier branches. -/
theorem claim_C2_other_transport_failure_empties :
    (∀ (gitLog : String → Except GitError String) (b : String) (e : GitError),
      gitLog b = .error e →
      jsIncludes e.stderr unknownRevisionMarker = false →
      jsIncludes e.stderr notARepoMarker = false →
      ∀ (pre : List String),
        (∀ p ∈ pre, (∃ s, gitLog p = .ok s) ∨
          ∃ e2, gitLog p = .error e2 ∧
            jsIncludes e2.stderr unknownRevisionMarker = true) →
      ∀ (post : List String),
        fetchCommits gitLog (pre ++ b :: post) = .ok [])
    ∧ (∀ (gitLog : String → Except GitError String) (b : String) (e : GitError),
      gitLog b = .error e →
      jsIncludes e.stderr unknownRevisionMarker = true →
      ∀ (rest : List String) (acc : List CommitEntry),
        fetchCommitsLoop gitLog (b :: rest) acc = fetchCommitsLoop gitLog rest acc) := by
  constructor
  · intro gitLog b e hb hu hnr pre hpre post
    rw [fetchCommits]
    have hne : pre ++ b :: post ≠ [] := by simp
    simp only [hne, reduceIte, ne_eq, not_false_iff, if_true]
    rw [fetchCommitsLoop_abort gitLog b e hb hu pre hpre post []]
    simp [hnr]
  · intro gitLog b e hb hu rest acc
    rw [fetchCommitsLoop, hb]
    simp [hu]

/-- Witness for the amended C2 at the concrete environment. -/
theorem claim_C2_witness :
    fetchCommits gitLogC2 (["b1"] ++ "b2" :: []) = .ok [] :=
  claim_C2_other_transport_failure_empties.1 gitLogC2 "b2"
    ⟨"error: connection reset by peer"⟩ (by decide) (by decide) (by decide)
    ["b1"] (by
      intro p hp
      rcases List.mem_singleton.mp hp with rfl
      exact .inl ⟨stdoutB1, by decide⟩) []

/-- Every entry produced by recording a parsed commit under branch `b`
into an accumulator whose entries all carry branch set `[b]` again carries
branch set `[b]`. -/
theorem addRecord_branches_single (b : String) :
    ∀ (acc : List CommitEntry) (p : ParsedCommit),
      (∀ c ∈ acc, c.branches = [b]) →
      ∀ c ∈ addRecord b acc p, c.branches = [b]
  | [], p, _ => by
    intro c hc
    rcases List.mem_singleton.mp hc with rfl
    rfl
  | e :: rest, p, h => by
    intro c hc
    rw [addRecord] at hc
    by_cases he : e.hash = p.hash
    · simp only [he, if_true, reduceIte] at hc
      rcases List.mem_cons.mp hc with rfl | hc
      · have hb : e.branches = [b] := h e (List.mem_cons_self e rest)
        simp [hb, addBranch]
      · exact h c (List.mem_cons_of_mem e hc)
    · simp only [he, if_false, reduceIte] at hc
      rcases List.mem_cons.mp hc with rfl | hc
      · exact h _ (List.mem_cons_self _ _)
      · exact addRecord_branches_single b rest p
          (fun d hd => h d (List.mem_cons_of_mem e hd)) c hc

/-- Fold version of `addRecord_branches_single`. -/
theorem foldl_addRecord_branches_single (b : String) :
    ∀ (rs : List ParsedCommit) (acc : List CommitEntry),
      (∀ c ∈ acc, c.branches = [b]) →
      ∀ c ∈ rs.foldl (addRecord b) acc, c.branches = [b]
  | [], acc, h => h
  | p :: rs, acc, h => by
    intro c hc
    rw [List.foldl_cons] at hc
    exact foldl_addRecord_branches_single b rs (addRecord b acc p)
      (addRecord_branches_single b acc p h) c hc

/-- C9: an empty (or absent) branch list does not short-circuit: the run
is the same as scanning the single pseudo-branch `HEAD`, and every commit
it produces carries `HEAD` as its sole branch provenance. -/
theorem claim_C9_empty_branch_list_scans_HEAD
    (gitLog : String → Except GitError String) :
    fetchCommits gitLog [] = fetchCommits gitLog ["HEAD"]
    ∧ ∀ cs, fetchCommits gitLog [] = .ok cs → ∀ c ∈ cs, c.branches = ["HEAD"] := by
  constructor
  · rfl
  · intro cs hcs c hc
    rw [fetchCommits] at hcs
    simp only [ne_eq, not_true_eq_false, reduceIte] at hcs
    cases hlog : gitLog "HEAD" with
    | ok s =>
      have hloop : fetchCommitsLoop gitLog ["HEAD"] [] = .ok (scanBranch [] "HEAD" s) := by
        rw [fetchCommitsLoop, hlog]
        rfl
      rw [hloop] at hcs
      simp only [FetchOutcome.ok.injEq] at hcs
      rw [← hcs] at hc
      obtain ⟨c0, hc0, rfl⟩ := List.mem_map.mp hc
      have hb : c0.branches = ["HEAD"] :=
        foldl_addRecord_branches_single "HEAD" (parseGitLog s) []
          (by intro d hd; cases hd) c0 hc0
      simp [finalizeEntry, hb, sortStrings, insSorted]
    | error e =>
      by_cases hu : jsIncludes e.stderr unknownRevisionMarker = true
      · have hloop : fetchCommitsLoop gitLog ["HEAD"] [] = .ok [] := by
          rw [fetchCommitsLoop, hlog]
          simp [hu, fetchCommitsLoop]
        rw [hloop] at hcs
        simp only [List.map_nil, FetchOutcome.ok.injEq] at hcs
        rw [← hcs] at hc
        cases hc
      · have hloop : fetchCommitsLoop gitLog ["HEAD"] [] = .error e := by
          rw [fetchCommitsLoop, hlog]
          simp [hu]
        rw [hloop] at hcs
        by_cases hnr : jsIncludes e.stderr notARepoMarker = true
        · simp [hnr] at hcs
        · simp only [hnr, Bool.false_eq_true, if_false, reduceIte,
            FetchOutcome.ok.injEq] at hcs
          rw [← hcs] at hc
          cases hc

/-- Witness for C9: a concrete `HEAD`-only repository. -/
theorem claim_C9_witness :
    fetchCommits (fun _ => .ok stdoutB1) [] =
      .ok [⟨"feat: one\n\n---COMMIT_SEPARATOR---", "d1", "h1", ["HEAD"]⟩]
    ∧ ∀ c ∈ [(⟨"feat: one\n\n---COMMIT_SEPARATOR---", "d1", "h1",
          ["HEAD"]⟩ : CommitEntry)], c.branches = ["HEAD"] :=
  ⟨by decide,
   (claim_C9_empty_branch_list_scans_HEAD (fun _ => .ok stdoutB1)).2
      [⟨"feat: one\n\n---COMMIT_SEPARATOR---", "d1", "h1", ["HEAD"]⟩] (by decide)⟩

/-- C3 counterexample: a run whose target is not a repository (every
git query against it dies with the not-a-repository stderr) but whose
author-identity lookup fails exits with the user-configuration error, not
the claimed `Not a Git repository` error (provider traffic is still 0). -/
theorem claim_C3_counterexample :
    mainRun mainCfgC mainEnvNoUser = ⟨.exitError userConfigMessage, 0, 0⟩
    ∧ userConfigMessage ≠ notARepoMessage := by
  refine ⟨by decide, by decide⟩

/-- C3 amended: an invalid target aborts the run before the generation
stage with zero provider calls (neither discovery nor generation); the
error is `Not a Git repository` whenever the author-identity lookup
succeeds, and the user-configuration error when that lookup fails. -/
theorem claim_C3_invalid_target_no_provider_calls :
    (∀ (cfg : MainCfg) (env : MainEnv) (u : String × String) (e : GitError),
      env.gitUser = .ok u → env.revParseHead = .error e →
      jsIncludes e.stderr "not a git repository" = true →
      mainRun cfg env = ⟨.exitError notARepoMessage, 0, 0⟩)
    ∧ (∀ (cfg : MainCfg) (env : MainEnv) (ge : GitError),
      env.gitUser = .error ge →
      mainRun cfg env = ⟨.exitError userConfigMessage, 0, 0⟩) := by
  constructor
  · intro cfg env u e hu hrev hmark
    rw [mainRun, hu]
    simp [getCurrentBranch, hrev, hmark]
  · intro cfg env ge hu
    rw [mainRun, hu]

/-- Witness for the amended C3 at a concrete invalid-target environment. -/
theorem claim_C3_witness :
    mainRun mainCfgC mainEnvInvalidTarget = ⟨.exitError notARepoMessage, 0, 0⟩ :=
  claim_C3_invalid_target_no_provider_calls.1 mainCfgC mainEnvInvalidTarget
    ("Jo Dev", "jo@example.com") notARepoStderr rfl rfl (by decide)

theorem addBranch_idem (l : List String) (b : String) :
    addBranch (addBranch l b) b = addBranch l b := by
  by_cases h : b ∈ l
  · simp [addBranch, h]
  · simp [addBranch, h]

theorem addBranch_self (b : String) : addBranch [b] b = [b] := by
  simp [addBranch]

theorem addBranch_of_ne {a b : String} (h : b ≠ a) : addBranch [a] b = [a, b] := by
  simp [addBranch, h]

/-- Recording a commit does not disturb the lookup of any other hash. -/
theorem find?_addRecord_ne (b : String) :
    ∀ (acc : List CommitEntry) (p : ParsedCommit) (h : String), p.hash ≠ h →
      (addRecord b acc p).find? (fun c => c.hash == h)
        = acc.find? (fun c => c.hash == h)
  | [], p, h, hne => by
    simp [addRecord, List.find?, beq_eq_false_iff_ne.mpr hne]
  | e :: rest, p, h, hne => by
    rw [addRecord]
    by_cases he : e.hash = p.hash
    · rw [if_pos he]
      have hf : (e.hash == h) = false := by
        rw [he]; exact beq_eq_false_iff_ne.mpr hne
      simp [List.find?, hf]
    · rw [if_neg he]
      by_cases hf : (e.hash == h) = true
      · simp [List.find?, hf]
      · have hf' : (e.hash == h) = false := by simpa using hf
        simp [List.find?, hf', find?_addRecord_ne b rest p h hne]

/-- First sighting of a hash: the recorded entry carries the parsed
message/date and the single sighting branch. -/
theorem find?_addRecord_new (b : String) :
    ∀ (acc : List CommitEntry) (p : ParsedCommit),
      acc.find? (fun c => c.hash == p.hash) = none →
      (addRecord b acc p).find? (fun c => c.hash == p.hash)
        = some ⟨p.message, p.date, p.hash, [b]⟩
  | [], p, _ => by simp [addRecord, List.find?]
  | e :: rest, p, hnone => by
    rw [List.find?_eq_none] at hnone
    have he : (e.hash == p.hash) = false := by
      have := hnone e (List.mem_cons_self e rest)
      simpa using this
    have he' : ¬ e.hash = p.hash := by simpa using he
    rw [addRecord, if_neg he']
    rw [List.find?_cons_of_neg _ (by simp [he])]
    exact find?_addRecord_new b rest p
      (List.find?_eq_none.mpr (fun a ha => hnone a (List.mem_cons_of_mem e ha)))

/-- Repeat sighting of a hash: only the branch set of the existing entry
grows. -/
theorem find?_addRecord_upd (b : String) :
    ∀ (acc : List CommitEntry) (p : ParsedCommit) (e : CommitEntry),
      acc.find? (fun c => c.hash == p.hash) = some e →
      (addRecord b acc p).find? (fun c => c.hash == p.hash)
        = some { e with branches := addBranch e.branches b }
  | [], _, _, h => by simp [List.find?] at h
  | e' :: rest, p, e, h => by
    by_cases he : e'.hash = p.hash
    · rw [List.find?_cons_of_pos _ (by simp [he])] at h
      have he2 : e' = e := Option.some.inj h
      subst he2
      rw [addRecord, if_pos he]
      exact List.find?_cons_of_pos _ (by simp [he])
    · rw [List.find?_cons_of_neg _ (by simp [he])] at h
      rw [addRecord, if_neg he]
      rw [List.find?_cons_of_neg _ (by simp [he])]
      exact find?_addRecord_upd b rest p e h

/-- A branch scan leaves hashes it never sights untouched. -/
theorem foldl_find?_keep (b hsh : String) :
    ∀ (rs : List ParsedCommit) (acc : List CommitEntry),
      (∀ r ∈ rs, r.hash ≠ hsh) →
      (rs.foldl (addRecord b) acc).find? (fun c => c.hash == hsh)
        = acc.find? (fun c => c.hash == hsh)
  | [], _, _ => rfl
  | r :: rs, acc, hall => by
    rw [List.foldl_cons]
    rw [foldl_find?_keep b hsh rs (addRecord b acc r)
      (fun q hq => hall q (List.mem_cons_of_mem r hq))]
    exact find?_addRecord_ne b acc r hsh (hall r (List.mem_cons_self r rs))

/-- A branch scan that sights an already-recorded hash only adds its
branch to that entry (idempotently across repeat sightings). -/
theorem foldl_find?_upd (b hsh : String) :
    ∀ (rs : List ParsedCommit) (acc : List CommitEntry) (e : CommitEntry),
      acc.find? (fun c => c.hash == hsh) = some e →
      (∃ r ∈ rs, r.hash = hsh) →
      (rs.foldl (addRecord b) acc).find? (fun c => c.hash == hsh)
        = some { e with branches := addBranch e.branches b }
  | [], _, _, _, hex => absurd hex (by simp)
  | r :: rs, acc, e, hacc, hex => by
    rw [List.foldl_cons]
    by_cases hr : r.hash = hsh
    · have hstep : (addRecord b acc r).find? (fun c => c.hash == hsh)
          = some { e with branches := addBranch e.branches b } := by
        have := find?_addRecord_upd b acc r e (by rw [hr]; exact hacc)
        rw [hr] at this
        exact this
      by_cases hex2 : ∃ q ∈ rs, q.hash = hsh
      · rw [foldl_find?_upd b hsh rs (addRecord b acc r) _ hstep hex2]
        simp [addBranch_idem]
      · push_neg at hex2
        rw [foldl_find?_keep b hsh rs (addRecord b acc r)
          (fun q hq => hex2 q hq)]
        exact hstep
    · have hstep : (addRecord b acc r).find? (fun c => c.hash == hsh) = some e := by
        rw [find?_addRecord_ne b acc r hsh hr]
        exact hacc
      have hex2 : ∃ q ∈ rs, q.hash = hsh := by
        rcases hex with ⟨q, hq, hqh⟩
        rcases List.mem_cons.mp hq with rfl | hq2
        · exact absurd hqh hr
        · exact ⟨q, hq2, hqh⟩
      exact foldl_find?_upd b hsh rs (addRecord b acc r) e hstep hex2

/-- A branch scan whose first sighted record for a fresh hash is `r0`
creates the entry from `r0` with that branch as sole provenance. -/
theorem foldl_find?_new (b hsh : String) :
    ∀ (rs : List ParsedCommit) (acc : List CommitEntry),
      acc.find? (fun c => c.hash == hsh) = none →
      ∀ (r0 : ParsedCommit), rs.find? (fun r => r.hash == hsh) = some r0 →
      (rs.foldl (addRecord b) acc).find? (fun c => c.hash == hsh)
        = some ⟨r0.message, r0.date, r0.hash, [b]⟩
  | [], _, _, r0, hr0 => by simp [List.find?] at hr0
  | r :: rs, acc, hacc, r0, hr0 => by
    rw [List.foldl_cons]
    by_cases hr : (r.hash == hsh) = true
    · rw [List.find?_cons_of_pos _ (by exact hr)] at hr0
      have hrr : r = r0 := Option.some.inj hr0
      subst hrr
      have hreq : r.hash = hsh := by simpa using hr
      rw [hreq]
      have hstep : (addRecord b acc r).find? (fun c => c.hash == hsh)
          = some ⟨r.message, r.date, hsh, [b]⟩ := by
        have h2 := find?_addRecord_new b acc r (by rw [hreq]; exact hacc)
        rw [hreq] at h2
        exact h2
      by_cases hex2 : ∃ q ∈ rs, q.hash = hsh
      · rw [foldl_find?_upd b hsh rs (addRecord b acc r) _ hstep hex2]
        simp [addBranch_self]
      · push_neg at hex2
        rw [foldl_find?_keep b hsh rs (addRecord b acc r)
          (fun q hq => hex2 q hq)]
        exact hstep
    · rw [List.find?_cons_of_neg _ (by exact hr)] at hr0
      have hrne : r.hash ≠ hsh := by simpa using hr
      have hstep : (addRecord b acc r).find? (fun c => c.hash == hsh) = none := by
        rw [find?_addRecord_ne b acc r hsh hrne]
        exact hacc
      exact foldl_find?_new b hsh rs (addRecord b acc r) hstep r0 hr0

/-- Hashes after a record step: the old hashes plus possibly the new one. -/
theorem mem_hashes_addRecord (b : String) :
    ∀ (acc : List CommitEntry) (p : ParsedCommit) (x : String),
      x ∈ (addRecord b acc p).map (fun c => c.hash) →
      x ∈ acc.map (fun c => c.hash) ∨ x = p.hash
  | [], p, x, hx => by
    simp [addRecord] at hx
    exact .inr hx
  | e :: rest, p, x, hx => by
    rw [addRecord] at hx
    by_cases he : e.hash = p.hash
    · rw [if_pos he] at hx
      simp only [List.map_cons, List.mem_cons] at hx ⊢
      rcases hx with hx | hx
      · exact .inl (.inl hx)
      · exact .inl (.inr hx)
    · rw [if_neg he] at hx
      simp only [List.map_cons, List.mem_cons] at hx ⊢
      rcases hx with hx | hx
      · exact .inl (.inl hx)
      · rcases mem_hashes_addRecord b rest p x hx with hx2 | hx2
        · exact .inl (.inr hx2)
        · exact .inr hx2

/-- A record step preserves hash uniqueness of the accumulator. -/
theorem nodup_hashes_addRecord (b : String) :
    ∀ (acc : List CommitEntry) (p : ParsedCommit),
      (acc.map (fun c => c.hash)).Nodup →
      ((addRecord b acc p).map (fun c => c.hash)).Nodup
  | [], p, _ => by simp [addRecord]
  | e :: rest, p, hnd => by
    rw [List.map_cons, List.nodup_cons] at hnd
    rw [addRecord]
    by_cases he : e.hash = p.hash
    · rw [if_pos he]
      rw [List.map_cons, List.nodup_cons]
      exact ⟨hnd.1, hnd.2⟩
    · rw [if_neg he]
      rw [List.map_cons, List.nodup_cons]
      refine ⟨?_, nodup_hashes_addRecord b rest p hnd.2⟩
      intro hmem
      rcases mem_hashes_addRecord b rest p e.hash hmem with hx | hx
      · exact hnd.1 hx
      · exact he hx

/-- A whole branch scan preserves hash uniqueness. -/
theorem nodup_hashes_foldl (b : String) :
    ∀ (rs : List ParsedCommit) (acc : List CommitEntry),
      (acc.map (fun c => c.hash)).Nodup →
      ((rs.foldl (addRecord b) acc).map (fun c => c.hash)).Nodup
  | [], _, hnd => hnd
  | r :: rs, acc, hnd => by
    rw [List.foldl_cons]
    exact nodup_hashes_foldl b rs (addRecord b acc r)
      (nodup_hashes_addRecord b acc r hnd)

/-- With unique hashes, the entries filtered by a hash are exactly the one
`find?` returns. -/
theorem filter_eq_singleton_of_find? :
    ∀ (l : List CommitEntry) (hsh : String) (e : CommitEntry),
      (l.map (fun c => c.hash)).Nodup →
      l.find? (fun c => c.hash == hsh) = some e →
      l.filter (fun c => c.hash == hsh) = [e]
  | [], _, _, _, hf => by simp [List.find?] at hf
  | x :: xs, hsh, e, hnd, hf => by
    rw [List.map_cons, List.nodup_cons] at hnd
    by_cases hx : (x.hash == hsh) = true
    · rw [List.find?_cons_of_pos _ (by exact hx)] at hf
      have hxe : x = e := Option.some.inj hf
      subst hxe
      simp only [List.filter_cons, hx, if_true, reduceIte]
      have hxs : xs.filter (fun c => c.hash == hsh) = [] := by
        rw [List.filter_eq_nil_iff]
        intro a ha hpa
        have h1 : a.hash = hsh := by simpa using hpa
        have h2 : x.hash = hsh := by simpa using hx
        exact hnd.1 (by
          rw [List.mem_map]
          exact ⟨a, ha, by rw [h1, h2]⟩)
      rw [hxs]
    · rw [List.find?_cons_of_neg _ (by exact hx)] at hf
      have hx2 : (x.hash == hsh) = false := by simpa using hx
      simp only [List.filter_cons, hx2, Bool.false_eq_true, if_false, reduceIte]
      exact filter_eq_singleton_of_find? xs hsh e hnd.2 hf

/-- Finalizing commutes with filtering by hash. -/
theorem filter_map_finalize (l : List CommitEntry) (hsh : String) :
    (l.map finalizeEntry).filter (fun c => c.hash == hsh)
      = (l.filter (fun c => c.hash == hsh)).map finalizeEntry := by
  rw [List.filter_map]
  rfl

/-- Core of C1: scanning branch `X` then branch `Y`, a hash present in the
parses of both yields exactly one aggregated commit, built from the first
sighting on `X` and carrying the sorted two-branch set. -/
theorem fetchCommits_two_branches (gitLog : String → Except GitError String)
    (X Y : String) (sX sY : String) (hsh : String) (pX : ParsedCommit)
    (hXY : X ≠ Y) (hX : gitLog X = .ok sX) (hY : gitLog Y = .ok sY)
    (hpX : (parseGitLog sX).find? (fun r => r.hash == hsh) = some pX)
    (hpY : ∃ r ∈ parseGitLog sY, r.hash = hsh) :
    ∃ cs, fetchCommits gitLog [X, Y] = .ok cs
      ∧ cs.filter (fun c => c.hash == hsh)
          = [⟨pX.message, pX.date, pX.hash, sortStrings [X, Y]⟩] := by
  have hYX : Y ≠ X := fun h => hXY h.symm
  have hloop : fetchCommitsLoop gitLog [X, Y] []
      = .ok (scanBranch (scanBranch [] X sX) Y sY) := by
    simp only [fetchCommitsLoop, hX, hY]
  have hfetch : fetchCommits gitLog [X, Y]
      = .ok ((scanBranch (scanBranch [] X sX) Y sY).map finalizeEntry) := by
    rw [fetchCommits]
    simp only [ne_eq, reduceCtorEq, not_false_iff, if_true, reduceIte]
    rw [hloop]
  have haccX : (scanBranch [] X sX).find? (fun c => c.hash == hsh)
      = some ⟨pX.message, pX.date, pX.hash, [X]⟩ :=
    foldl_find?_new X hsh (parseGitLog sX) [] rfl pX hpX
  have haccXY : (scanBranch (scanBranch [] X sX) Y sY).find? (fun c => c.hash == hsh)
      = some ⟨pX.message, pX.date, pX.hash, addBranch [X] Y⟩ :=
    foldl_find?_upd Y hsh (parseGitLog sY) (scanBranch [] X sX) _ haccX hpY
  rw [addBranch_of_ne hYX] at haccXY
  have hnd : ((scanBranch (scanBranch [] X sX) Y sY).map (fun c => c.hash)).Nodup :=
    nodup_hashes_foldl Y (parseGitLog sY) _
      (nodup_hashes_foldl X (parseGitLog sX) [] (by simp))
  refine ⟨_, hfetch, ?_⟩
  rw [filter_map_finalize]
  rw [filter_eq_singleton_of_find? _ hsh _ hnd haccXY]
  rfl

/-- C1: a hash sighted on two scanned branches `A ≠ B` (both queries
succeeding within the window) aggregates to exactly one commit whose
message and date come from the first sighting in scan order and whose
branch set is `{A, B}` sorted ascending — the same sorted set for either
scan order. -/
theorem claim_C1_dedup_across_branches
    (gitLog : String → Except GitError String) (A B sA sB hsh : String)
    (pA pB : ParsedCommit) (hAB : A ≠ B)
    (hA : gitLog A = .ok sA) (hB : gitLog B = .ok sB)
    (hpA : (parseGitLog sA).find? (fun r => r.hash == hsh) = some pA)
    (hpB : (parseGitLog sB).find? (fun r => r.hash == hsh) = some pB) :
    (∃ cs, fetchCommits gitLog [A, B] = .ok cs
      ∧ cs.filter (fun c => c.hash == hsh)
          = [⟨pA.message, pA.date, pA.hash, sortStrings [A, B]⟩])
    ∧ (∃ cs, fetchCommits gitLog [B, A] = .ok cs
      ∧ cs.filter (fun c => c.hash == hsh)
          = [⟨pB.message, pB.date, pB.hash, sortStrings [A, B]⟩]) := by
  have hBA : B ≠ A := fun h => hAB h.symm
  have hmemB : ∃ r ∈ parseGitLog sB, r.hash = hsh :=
    ⟨pB, List.mem_of_find?_eq_some hpB, by simpa using List.find?_some hpB⟩
  have hmemA : ∃ r ∈ parseGitLog sA, r.hash = hsh :=
    ⟨pA, List.mem_of_find?_eq_some hpA, by simpa using List.find?_some hpA⟩
  refine ⟨fetchCommits_two_branches gitLog A B sA sB hsh pA hAB hA hB hpA hmemB, ?_⟩
  have h2 := fetchCommits_two_branches gitLog B A sB sA hsh pB hBA hB hA hpB hmemA
  rw [sortStrings_pair_comm A B] at h2
  exact h2

/-- Witness for C1: commit `h1` sits on branches `alpha` and `beta`; both
scan orders aggregate it to one entry with branch set
`["alpha", "beta"]`, the message coming from the first sighting (each branch's last log block
keeps the trailing separator artifact in its body, exactly as the source
parses it). -/
theorem claim_C1_witness :
    ((∃ cs, fetchCommits gitLogC1 ["alpha", "beta"] = .ok cs
        ∧ cs.filter (fun c => c.hash == "h1")
            = [⟨"feat: shared\n\n---COMMIT_SEPARATOR---", "d1", "h1",
                sortStrings ["alpha", "beta"]⟩])
      ∧ (∃ cs, fetchCommits gitLogC1 ["beta", "alpha"] = .ok cs
        ∧ cs.filter (fun c => c.hash == "h1")
            = [⟨"feat: shared\n\n---COMMIT_SEPARATOR---", "d1", "h1",
                sortStrings ["alpha", "beta"]⟩]))
    ∧ sortStrings ["alpha", "beta"] = ["alpha", "beta"] :=
  ⟨claim_C1_dedup_across_branches gitLogC1 "alpha" "beta" stdoutAlpha stdoutBeta
      "h1" ⟨"h1", "d1", "feat: shared\n\n---COMMIT_SEPARATOR---"⟩
      ⟨"h1", "d1", "feat: shared\n\n---COMMIT_SEPARATOR---"⟩
      (by decide) (by decide) (by decide) (by decide) (by decide),
   by decide⟩

theorem upper_isWord {c : Char} (h : isUpperAZ c = true) : isWordChar c = true := by
  simp only [isUpperAZ, decide_eq_true_eq] at h
  simp only [isWordChar, decide_eq_true_eq]
  exact .inl h

theorem digit_isWord {c : Char} (h : isDigitC c = true) : isWordChar c = true := by
  simp only [isDigitC, decide_eq_true_eq] at h
  simp only [isWordChar, decide_eq_true_eq]
  exact .inr (.inr (.inl h))

theorem upper_not_digit {c : Char} (h : isUpperAZ c = true) : isDigitC c = false := by
  simp only [isUpperAZ, decide_eq_true_eq] at h
  simp only [isDigitC, decide_eq_false_iff_not, decide_eq_true_eq]
  intro h2
  exact absurd (le_trans h.1 h2.2) (by decide)

theorem not_word_not_digit {c : Char} (h : isWordChar c = false) : isDigitC c = false := by
  rcases hd : isDigitC c with _ | _
  · rfl
  · rw [digit_isWord hd] at h
    cases h

/-- Splitting a run: `takeWhile`/`dropWhile` on a list made of a satisfying
run, a failing element, and a remainder. -/
theorem takeWhile_middle (p : Char → Bool) :
    ∀ (xs : List Char), (∀ x ∈ xs, p x = true) →
    ∀ (y : Char), p y = false → ∀ (zs : List Char),
      (xs ++ y :: zs).takeWhile p = xs ∧ (xs ++ y :: zs).dropWhile p = y :: zs
  | [], _, y, hy, zs => by
    simp [List.takeWhile_cons, List.dropWhile_cons, hy]
  | x :: xs, hxs, y, hy, zs => by
    have hx : p x = true := hxs x (List.mem_cons_self x xs)
    have ih := takeWhile_middle p xs
      (fun a ha => hxs a (List.mem_cons_of_mem x ha)) y hy zs
    simp [List.takeWhile_cons, List.dropWhile_cons, hx, ih.1, ih.2]

/-- `takeWhile`/`dropWhile` on a fully satisfying list. -/
theorem takeWhile_all (p : Char → Bool) :
    ∀ (xs : List Char), (∀ x ∈ xs, p x = true) →
      xs.takeWhile p = xs ∧ xs.dropWhile p = []
  | [], _ => by simp
  | x :: xs, hxs => by
    have hx : p x = true := hxs x (List.mem_cons_self x xs)
    have ih := takeWhile_all p xs (fun a ha => hxs a (List.mem_cons_of_mem x ha))
    simp [List.takeWhile_cons, List.dropWhile_cons, hx, ih.1, ih.2]

/-- Soundness of the greedy attempt: a match is a shaped prefix with a
right boundary. -/
theorem tryJira_sound (l t r : List Char) (h : tryJira l = some (t, r)) :
    l = t ++ r ∧ TicketShape t ∧ RightBd r := by
  unfold tryJira at h
  by_cases hc : (l.takeWhile isUpperAZ ≠ []
      ∧ (l.dropWhile isUpperAZ).head? = some '-'
      ∧ (l.dropWhile isUpperAZ).tail.takeWhile isDigitC ≠ []
      ∧ rightBoundaryOk ((l.dropWhile isUpperAZ).tail.dropWhile isDigitC) = true)
  · rw [if_pos hc] at h
    obtain ⟨hus, hhead, hds, hrb⟩ := hc
    injection h with hpair
    injection hpair with ht hr
    rcases hdrop : l.dropWhile isUpperAZ with _ | ⟨c0, tl⟩
    · rw [hdrop] at hhead
      cases hhead
    · rw [hdrop] at hhead
      have hc0 : c0 = '-' := Option.some.inj hhead
      subst hc0
      rw [hdrop] at ht hr hds hrb
      simp only [List.tail_cons] at ht hr hds hrb
      have hsplit := List.takeWhile_append_dropWhile isDigitC tl
      refine ⟨?_, ?_, ?_⟩
      · rw [← ht, ← hr]
        have := List.takeWhile_append_dropWhile isUpperAZ l
        rw [hdrop] at this
        calc l = l.takeWhile isUpperAZ ++ '-' :: tl := this.symm
          _ = l.takeWhile isUpperAZ
                ++ '-' :: (tl.takeWhile isDigitC ++ tl.dropWhile isDigitC) := by
            rw [hsplit]
          _ = (l.takeWhile isUpperAZ ++ '-' :: tl.takeWhile isDigitC)
                ++ tl.dropWhile isDigitC := by simp
      · refine ⟨l.takeWhile isUpperAZ, tl.takeWhile isDigitC, ht.symm, hus, hds,
          fun c hc => List.mem_takeWhile_imp hc,
          fun c hc => List.mem_takeWhile_imp hc⟩
      · rw [← hr]
        rcases hpost : tl.dropWhile isDigitC with _ | ⟨c1, post⟩
        · exact trivial
        · rw [hpost] at hrb
          simp only [rightBoundaryOk, Bool.not_eq_true'] at hrb
          exact hrb
  · rw [if_neg hc] at h
    cases h

/-- Completeness of the greedy attempt: a shaped prefix with a right
boundary is found, and greedily matches exactly itself. -/
theorem tryJira_complete (t r : List Char) (hshape : TicketShape t)
    (hrb : RightBd r) : tryJira (t ++ r) = some (t, r) := by
  obtain ⟨us, ds, rfl, hus, hds, hupper, hdigit⟩ := hshape
  have hassoc : (us ++ '-' :: ds) ++ r = us ++ '-' :: (ds ++ r) := by simp
  have h1 := takeWhile_middle isUpperAZ us hupper '-' (by decide) (ds ++ r)
  have h2 : (ds ++ r).takeWhile isDigitC = ds ∧ (ds ++ r).dropWhile isDigitC = r := by
    cases r with
    | nil =>
      rw [List.append_nil]
      exact takeWhile_all isDigitC ds hdigit
    | cons c r2 =>
      have hcw : isWordChar c = false := hrb
      exact takeWhile_middle isDigitC ds hdigit c (not_word_not_digit hcw) r2
  have hrb2 : rightBoundaryOk r = true := by
    cases r with
    | nil => rfl
    | cons c r2 =>
      have hcw : isWordChar c = false := hrb
      simp [rightBoundaryOk, hcw]
  unfold tryJira
  rw [hassoc, h1.1, h1.2]
  simp only [List.head?_cons, List.tail_cons, h2.1, h2.2]
  rw [if_pos ⟨hus, trivial, hds, hrb2⟩]

theorem shape_ne_nil {t : List Char} (h : TicketShape t) : t ≠ [] := by
  obtain ⟨us, ds, rfl, -, -, -, -⟩ := h
  simp

theorem shape_head_upper {t : List Char} (h : TicketShape t) :
    ∃ u t2, t = u :: t2 ∧ isUpperAZ u = true := by
  obtain ⟨us, ds, rfl, hus, -, hupper, -⟩ := h
  cases us with
  | nil => exact absurd rfl hus
  | cons u us2 =>
    exact ⟨u, us2 ++ '-' :: ds, by simp,
      hupper u (List.mem_cons_self u us2)⟩

theorem shape_getLast_digit {t : List Char} (h : TicketShape t) :
    ∃ d, t.getLast? = some d ∧ isDigitC d = true := by
  obtain ⟨us, ds, rfl, -, hds, -, hdigit⟩ := h
  obtain ⟨d, hd⟩ : ∃ d, ds.getLast? = some d :=
    ⟨ds.getLast hds, List.getLast?_eq_getLast ds hds⟩
  refine ⟨d, ?_, hdigit d (List.mem_of_mem_getLast? hd)⟩
  rw [List.getLast?_append]
  have h2 : ('-' :: ds).getLast? = some d := by
    cases ds with
    | nil => simp at hd
    | cons d0 ds2 =>
      rw [List.getLast?_cons_cons]
      exact hd
  rw [h2]
  rfl

theorem isJiraAt_nil (bd : Bool) (t : List Char) : ¬ IsJiraAt bd [] t := by
  rintro ⟨pre, post, hdec, hsh, -, -⟩
  have h1 : pre ++ t ++ post = [] := hdec.symm
  rw [List.append_assoc] at h1
  obtain ⟨-, h2⟩ := List.append_eq_nil.mp h1
  obtain ⟨h3, -⟩ := List.append_eq_nil.mp h2
  exact shape_ne_nil hsh h3

theorem leftBd_nil {bd : Bool} (h : LeftBd bd []) : bd = true := h

theorem leftBd_nonempty {bd : Bool} {pre : List Char} (hpre : pre ≠ [])
    (h : LeftBd bd pre) : ∃ x, pre.getLast? = some x ∧ isWordChar x = false := by
  unfold LeftBd at h
  rcases hg : pre.getLast? with _ | x
  · obtain ⟨y, hy⟩ : ∃ y, pre.getLast? = some y :=
      ⟨pre.getLast hpre, List.getLast?_eq_getLast pre hpre⟩
    rw [hy] at hg
    cases hg
  · rw [hg] at h
    exact ⟨x, rfl, h⟩

theorem leftBd_of_getLast {bd : Bool} {pre : List Char} {x : Char}
    (hg : pre.getLast? = some x) (hx : isWordChar x = false) : LeftBd bd pre := by
  unfold LeftBd
  rw [hg]
  exact hx

/-- Lifting an occurrence over one skipped character: the boundary flag for
the next position is exactly "the skipped character is not a word
character". -/
theorem isJiraAt_lift_cons (bd : Bool) (c : Char) (rest t : List Char)
    (h : IsJiraAt (!isWordChar c) rest t) : IsJiraAt bd (c :: rest) t := by
  obtain ⟨pre, post, hdec, hsh, hlb, hrb⟩ := h
  refine ⟨c :: pre, post, by rw [hdec]; rfl, hsh, ?_, hrb⟩
  cases hp : pre with
  | nil =>
    rw [hp] at hlb
    have hcw : isWordChar c = false := by
      have := leftBd_nil hlb
      simpa using this
    exact leftBd_of_getLast (by rfl) hcw
  | cons p ps =>
    rw [hp] at hlb
    obtain ⟨x, hx1, hx2⟩ := leftBd_nonempty (by simp) hlb
    exact leftBd_of_getLast (by rw [List.getLast?_cons_cons, hx1]) hx2

/-- Lifting an occurrence over a skipped match: the match ends in a word
character, so the occurrence cannot start right after it, and its `pre`
part stays non-empty. -/
theorem isJiraAt_lift_append (bd : Bool) (t0 r t : List Char)
    (h : IsJiraAt false r t) : IsJiraAt bd (t0 ++ r) t := by
  obtain ⟨pre, post, hdec, hsh, hlb, hrb⟩ := h
  have hpre : pre ≠ [] := by
    intro hp
    rw [hp] at hlb
    cases leftBd_nil hlb
  obtain ⟨x, hx1, hx2⟩ := leftBd_nonempty hpre hlb
  refine ⟨t0 ++ pre, post, by rw [hdec]; simp, hsh, ?_, hrb⟩
  refine leftBd_of_getLast ?_ hx2
  rw [List.getLast?_append, hx1]
  rfl

/-- Splitting an occurrence in `c :: rest`: it starts at the head (with the
boundary flag set), or it occurs in `rest` with the flag recomputed from
`c`. -/
theorem isJiraAt_cons_cases (bd : Bool) (c : Char) (rest t : List Char)
    (h : IsJiraAt bd (c :: rest) t) :
    (bd = true ∧ ∃ post, c :: rest = t ++ post ∧ TicketShape t ∧ RightBd post)
    ∨ IsJiraAt (!isWordChar c) rest t := by
  obtain ⟨pre, post, hdec, hsh, hlb, hrb⟩ := h
  cases pre with
  | nil =>
    exact .inl ⟨leftBd_nil hlb, post, by simpa using hdec, hsh, hrb⟩
  | cons p ps =>
    right
    have hdec2 : p :: (ps ++ t ++ post) = c :: rest := by simpa using hdec.symm
    injection hdec2 with hpc hrest
    subst hpc
    refine ⟨ps, post, hrest.symm, hsh, ?_, hrb⟩
    cases hps : ps with
    | nil =>
      rw [hps] at hlb
      obtain ⟨x, hx1, hx2⟩ := leftBd_nonempty (by simp) hlb
      have hxp : x = p := by
        have : ([p].getLast? : Option Char) = some p := rfl
        rw [this] at hx1
        exact (Option.some.inj hx1).symm
      subst hxp
      show LeftBd (!isWordChar x) []
      unfold LeftBd
      simp [hx2]
    | cons q qs =>
      rw [hps] at hlb
      obtain ⟨x, hx1, hx2⟩ := leftBd_nonempty (by simp) hlb
      rw [List.getLast?_cons_cons] at hx1
      exact leftBd_of_getLast hx1 hx2

/-- Skipping a found match is complete: any occurrence in `t0 ++ r` (where
`t0` is a shaped match with right boundary `r`) is either `t0` itself at
position zero, or lies wholly within `r`. A later occurrence cannot start
inside `t0`: the only non-word character of `t0` is its dash, and the
character after the dash is a digit, not an uppercase letter; and it cannot
start right after `t0`, whose last character is a digit (a word character,
so no boundary). -/
theorem isJiraAt_skip (bd : Bool) (t0 r t : List Char)
    (hsh0 : TicketShape t0) (hrb0 : RightBd r)
    (h : IsJiraAt bd (t0 ++ r) t) :
    t = t0 ∨ IsJiraAt false r t := by
  obtain ⟨pre, post, hdec, hsh, hlb, hrb⟩ := h
  by_cases hpre : pre = []
  · left
    rw [hpre] at hdec
    have hdec2 : t0 ++ r = t ++ post := by simpa using hdec
    have e1 := tryJira_complete t0 r hsh0 hrb0
    have e2 := tryJira_complete t post hsh hrb
    rw [hdec2, e2] at e1
    have hpair : (t, post) = (t0, r) := Option.some.inj e1
    exact congrArg Prod.fst hpair
  · right
    obtain ⟨x, hx1, hx2⟩ := leftBd_nonempty hpre hlb
    have hsplit1 : pre ++ (t ++ post) = t0 ++ r := by
      rw [← List.append_assoc]
      exact hdec.symm
    rcases List.append_eq_append_iff.mp hsplit1 with ⟨k, hk1, hk2⟩ | ⟨k, hk1, hk2⟩
    · exfalso
      obtain ⟨us, ds, ht0, hus, hds, hupper, hdigit⟩ := hsh0
      cases k with
      | nil =>
        rw [List.append_nil] at hk1
        obtain ⟨d, hd1, hd2⟩ :=
          shape_getLast_digit (⟨us, ds, ht0, hus, hds, hupper, hdigit⟩ : TicketShape t0)
        rw [hk1, hx1] at hd1
        have hxd : x = d := Option.some.inj hd1
        rw [← hxd] at hd2
        rw [digit_isWord hd2] at hx2
        cases hx2
      | cons k0 ks =>
        have hsplit2 : pre ++ (k0 :: ks) = us ++ ('-' :: ds) := by
          rw [← hk1, ht0]
        obtain ⟨u, t2, hht, hu⟩ := shape_head_upper hsh
        have hhead : u = k0 := by
          rw [hht] at hk2
          have := congrArg List.head? hk2
          simpa using this
        rcases List.append_eq_append_iff.mp hsplit2 with ⟨j, hj1, hj2⟩ | ⟨j, hj1, hj2⟩
        · have hxpre : x ∈ pre := List.mem_of_mem_getLast? hx1
          have hxus : x ∈ us := by
            rw [hj1]
            exact List.mem_append_left j hxpre
          have hw := upper_isWord (hupper x hxus)
          rw [hx2] at hw
          cases hw
        · cases j with
          | nil =>
            have h2 : '-' = k0 := by
              have := congrArg List.head? hj2
              simpa using this
            rw [← h2] at hhead
            rw [hhead] at hu
            exact absurd hu (by decide)
          | cons j0 js =>
            have hj2b : '-' :: ds = j0 :: (js ++ k0 :: ks) := by simpa using hj2
            injection hj2b with hj0 hdsrest
            have hk0ds : k0 ∈ ds := by
              rw [hdsrest]
              exact List.mem_append_right js (List.mem_cons_self k0 ks)
            have hdig := hdigit k0 hk0ds
            rw [hhead] at hu
            rw [upper_not_digit hu] at hdig
            cases hdig
    · cases k with
      | nil =>
        exfalso
        rw [List.append_nil] at hk1
        obtain ⟨d, hd1, hd2⟩ := shape_getLast_digit hsh0
        rw [← hk1, hx1] at hd1
        have hxd : x = d := Option.some.inj hd1
        rw [← hxd] at hd2
        rw [digit_isWord hd2] at hx2
        cases hx2
      | cons k0 ks =>
        refine ⟨k0 :: ks, post, ?_, hsh, ?_, hrb⟩
        · rw [hk2, List.append_assoc]
        · have hgl : pre.getLast? = (k0 :: ks).getLast? := by
            rw [hk1, List.getLast?_append]
            obtain ⟨y, hy⟩ : ∃ y, (k0 :: ks).getLast? = some y :=
              ⟨(k0 :: ks).getLast (by simp), List.getLast?_eq_getLast _ (by simp)⟩
            rw [hy]
            rfl
          rw [hgl] at hx1
          exact leftBd_of_getLast hx1 hx2

/-- The global scan finds exactly the boundary-delimited shaped
occurrences. -/
theorem scanJiraAux_mem :
    ∀ (fuel : Nat) (bd : Bool) (l : List Char), l.length ≤ fuel →
    ∀ t, t ∈ scanJiraAux fuel bd l ↔ IsJiraAt bd l t
  | 0, bd, l, hlen, t => by
    have hl : l = [] := List.length_eq_zero.mp (Nat.le_zero.mp hlen)
    rw [hl]
    simp only [scanJiraAux, List.not_mem_nil, false_iff]
    exact isJiraAt_nil bd t
  | fuel+1, bd, [], _, t => by
    simp only [scanJiraAux, List.not_mem_nil, false_iff]
    exact isJiraAt_nil bd t
  | fuel+1, bd, c :: rest, hlen, t => by
    have hlenr : rest.length ≤ fuel := by
      simpa using Nat.le_of_succ_le_succ (by simpa using hlen)
    rw [scanJiraAux]
    by_cases hcond : (bd && isUpperAZ c) = true
    · rw [if_pos hcond]
      obtain ⟨hbd, hupc⟩ := Bool.and_eq_true_iff.mp hcond
      cases htry : tryJira (c :: rest) with
      | some pair =>
        rcases pair with ⟨t0, r⟩
        obtain ⟨hdec0, hsh0, hrb0⟩ := tryJira_sound _ _ _ htry
        have ht0ne : t0 ≠ [] := shape_ne_nil hsh0
        have hlenr2 : r.length ≤ fuel := by
          have hlen0 : (c :: rest).length = t0.length + r.length := by
            rw [hdec0, List.length_append]
          have ht0pos : 1 ≤ t0.length := by
            cases ht00 : t0 with
            | nil => exact absurd ht00 ht0ne
            | cons a as => simp
          simp only [List.length_cons] at hlen0
          omega
        constructor
        · intro ht
          rcases List.mem_cons.mp ht with rfl | ht2
          · refine ⟨[], r, by simpa using hdec0, hsh0, ?_, hrb0⟩
            exact hbd
          · rw [hdec0]
            exact isJiraAt_lift_append bd t0 r t
              ((scanJiraAux_mem fuel false r hlenr2 t).mp ht2)
        · intro hj
          rw [hdec0] at hj
          rcases isJiraAt_skip bd t0 r t hsh0 hrb0 hj with rfl | hj2
          · exact List.mem_cons_self _ _
          · exact List.mem_cons_of_mem _
              ((scanJiraAux_mem fuel false r hlenr2 t).mpr hj2)
      | none =>
        rw [scanJiraAux_mem fuel (!isWordChar c) rest hlenr t]
        constructor
        · exact isJiraAt_lift_cons bd c rest t
        · intro hj
          rcases isJiraAt_cons_cases bd c rest t hj with ⟨-, post, hdec, hsh, hrb⟩ | hj2
          · exfalso
            have := tryJira_complete t post hsh hrb
            rw [← hdec] at this
            rw [htry] at this
            cases this
          · exact hj2
    · rw [if_neg hcond]
      rw [scanJiraAux_mem fuel (!isWordChar c) rest hlenr t]
      constructor
      · exact isJiraAt_lift_cons bd c rest t
      · intro hj
        rcases isJiraAt_cons_cases bd c rest t hj with ⟨hbd, post, hdec, hsh, -⟩ | hj2
        · exfalso
          obtain ⟨u, t2, hht, hu⟩ := shape_head_upper hsh
          have huc : u = c := by
            rw [hht] at hdec
            have := congrArg List.head? hdec
            simpa using this.symm
          rw [huc] at hu
          rw [hbd, hu] at hcond
          exact hcond rfl
        · exact hj2

/-- String-level corollary: `scanJira` returns exactly the claimed
boundary-delimited pattern occurrences of the message. -/
theorem scanJira_mem (msg : String) (t : String) :
    t ∈ scanJira msg ↔ IsJiraAt true msg.data t.data := by
  unfold scanJira
  rw [List.mem_map]
  constructor
  · rintro ⟨l, hl, rfl⟩
    exact (scanJiraAux_mem msg.data.length true msg.data le_rfl l).mp hl
  · intro hj
    refine ⟨t.data, (scanJiraAux_mem msg.data.length true msg.data le_rfl t.data).mpr hj, ?_⟩
    cases t
    rfl

theorem charListLe_trans :
    ∀ a b c : List Char, charListLe a b = true → charListLe b c = true →
      charListLe a c = true
  | [], _, _, _, _ => rfl
  | _ :: _, [], _, hab, _ => by simp [charListLe] at hab
  | _ :: _, _ :: _, [], _, hbc => by simp [charListLe] at hbc
  | a :: as, b :: bs, c :: cs, hab, hbc => by
    simp only [charListLe] at hab hbc ⊢
    by_cases h1 : a.toNat < b.toNat
    · by_cases h2 : b.toNat < c.toNat
      · simp [Nat.lt_trans h1 h2]
      · by_cases h3 : c.toNat < b.toNat
        · simp [h2, h3] at hbc
        · have h4 : a.toNat < c.toNat := by omega
          simp [h4]
    · by_cases h1b : b.toNat < a.toNat
      · simp [h1, h1b] at hab
      · simp only [h1, h1b, if_false, reduceIte] at hab
        by_cases h2 : b.toNat < c.toNat
        · have h4 : a.toNat < c.toNat := by omega
          simp [h4]
        · by_cases h3 : c.toNat < b.toNat
          · simp [h2, h3] at hbc
          · simp only [h2, h3, if_false, reduceIte] at hbc
            have h4 : ¬ a.toNat < c.toNat := by omega
            have h5 : ¬ c.toNat < a.toNat := by omega
            simp only [h4, h5, if_false, reduceIte]
            exact charListLe_trans as bs cs hab hbc

theorem strLe_trans {a b c : String} (hab : strLe a b = true)
    (hbc : strLe b c = true) : strLe a c = true :=
  charListLe_trans a.data b.data c.data hab hbc

theorem mem_insSorted (x y : String) :
    ∀ l : List String, y ∈ insSorted x l ↔ y = x ∨ y ∈ l
  | [] => by simp [insSorted]
  | z :: zs => by
    rw [insSorted]
    by_cases h : strLe x z = true
    · simp [h]
    · simp only [h, if_false, Bool.false_eq_true, reduceIte, List.mem_cons,
        mem_insSorted x y zs]
      tauto

theorem nodup_insSorted (x : String) :
    ∀ l : List String, x ∉ l → l.Nodup → (insSorted x l).Nodup
  | [], _, _ => by simp [insSorted]
  | z :: zs, hx, hnd => by
    rw [List.nodup_cons] at hnd
    rw [insSorted]
    by_cases h : strLe x z = true
    · simp only [h, if_true, reduceIte]
      rw [List.nodup_cons]
      exact ⟨hx, List.nodup_cons.mpr hnd⟩
    · simp only [h, if_false, Bool.false_eq_true, reduceIte]
      rw [List.nodup_cons]
      constructor
      · intro hz
        rcases (mem_insSorted x z zs).mp hz with rfl | hz2
        · exact hx (List.mem_cons_self z zs)
        · exact hnd.1 hz2
      · exact nodup_insSorted x zs
          (fun h2 => hx (List.mem_cons_of_mem z h2)) hnd.2

theorem sorted_insSorted (x : String) :
    ∀ l : List String, List.Pairwise (fun a b => strLe a b = true) l →
      List.Pairwise (fun a b => strLe a b = true) (insSorted x l)
  | [], _ => by simp [insSorted]
  | z :: zs, h => by
    rw [List.pairwise_cons] at h
    rw [insSorted]
    by_cases hxz : strLe x z = true
    · simp only [hxz, if_true, reduceIte]
      rw [List.pairwise_cons]
      refine ⟨?_, List.pairwise_cons.mpr h⟩
      intro w hw
      rcases List.mem_cons.mp hw with rfl | hw2
      · exact hxz
      · exact strLe_trans hxz (h.1 w hw2)
    · simp only [hxz, if_false, Bool.false_eq_true, reduceIte]
      rw [List.pairwise_cons]
      constructor
      · intro w hw
        rcases (mem_insSorted x w zs).mp hw with rfl | hw2
        · rcases strLe_total w z with h2 | h2
          · exact absurd h2 hxz
          · exact h2
        · exact h.1 w hw2
      · exact sorted_insSorted x zs h.2

theorem mem_sortStrings (y : String) :
    ∀ l : List String, y ∈ sortStrings l ↔ y ∈ l
  | [] => Iff.rfl
  | x :: xs => by
    rw [sortStrings, mem_insSorted, mem_sortStrings y xs]
    simp [eq_comm]

theorem nodup_sortStrings : ∀ l : List String, l.Nodup → (sortStrings l).Nodup
  | [], _ => by simp [sortStrings]
  | x :: xs, hnd => by
    rw [List.nodup_cons] at hnd
    rw [sortStrings]
    exact nodup_insSorted x (sortStrings xs)
      (fun h => hnd.1 ((mem_sortStrings x xs).mp h)) (nodup_sortStrings xs hnd.2)

theorem sorted_sortStrings :
    ∀ l : List String, List.Pairwise (fun a b => strLe a b = true) (sortStrings l)
  | [] => by simp [sortStrings]
  | x :: xs => sorted_insSorted x (sortStrings xs) (sorted_sortStrings xs)

theorem mem_addUnique (acc : List String) (x y : String) :
    y ∈ addUnique acc x ↔ y ∈ acc ∨ y = x := by
  unfold addUnique
  by_cases h : x ∈ acc
  · simp only [h, if_true, reduceIte]
    constructor
    · exact .inl
    · rintro (hy | rfl)
      · exact hy
      · exact h
  · simp [h]

theorem nodup_addUnique (acc : List String) (x : String) (h : acc.Nodup) :
    (addUnique acc x).Nodup := by
  unfold addUnique
  by_cases hx : x ∈ acc
  · simpa [hx]
  · simp only [hx, if_false, reduceIte]
    simp [List.nodup_append, h, hx]

theorem mem_foldl_addUnique (y : String) :
    ∀ (l acc : List String), y ∈ l.foldl addUnique acc ↔ y ∈ acc ∨ y ∈ l
  | [], acc => by simp
  | x :: xs, acc => by
    rw [List.foldl_cons, mem_foldl_addUnique y xs (addUnique acc x), mem_addUnique]
    simp only [List.mem_cons]
    tauto

theorem nodup_foldl_addUnique :
    ∀ (l acc : List String), acc.Nodup → (l.foldl addUnique acc).Nodup
  | [], _, h => h
  | x :: xs, acc, h => by
    rw [List.foldl_cons]
    exact nodup_foldl_addUnique xs (addUnique acc x) (nodup_addUnique acc x h)

theorem mem_dedupeStr (l : List String) (y : String) : y ∈ dedupeStr l ↔ y ∈ l := by
  unfold dedupeStr
  rw [mem_foldl_addUnique]
  simp

theorem nodup_dedupeStr (l : List String) : (dedupeStr l).Nodup :=
  nodup_foldl_addUnique l [] (by simp)

/-- An immediately-successful candidate returns the extracted text after
the Jira-append step, after exactly one call. -/
theorem generateSummary_firstSuccess (commits : List CommitEntry)
    (hc : commits ≠ []) (m1 : String) (rest : List String) (env : GenEnv)
    (resp : GenResponse) (h0 : env.gen m1 0 = .ok resp)
    (hne : extractResponseText (some resp) ≠ "") :
    generateSummary commits false true (m1 :: rest) env
      = ⟨.ok (appendJiraIfMissing (extractJiraTickets commits)
            (extractResponseText (some resp)), some m1), [m1], []⟩ := by
  rw [generateSummary]
  simp only [hc, reduceIte]
  rw [generateLoop]
  rw [callWithRetries_firstSuccess (env.gen m1) resp h0]
  simp [hne, List.replicate]

/-- C10: `extractJiraTickets` returns exactly the set of substrings of the
commit messages matching `[A-Z]+-\d+` at word boundaries — deduplicated and
sorted ascending — and a successful summary passes through the Jira-append
step, which appends the `Jira Tickets:` line precisely when the ticket list
is non-empty and its first ticket does not already occur in the generated
text. -/
theorem claim_C10_jira_tickets :
    (∀ (commits : List CommitEntry) (t : String),
      t ∈ extractJiraTickets commits
        ↔ ∃ c ∈ commits, IsJiraAt true c.message.data t.data)
    ∧ (∀ commits : List CommitEntry, (extractJiraTickets commits).Nodup)
    ∧ (∀ commits : List CommitEntry,
        List.Pairwise (fun a b => strLe a b = true) (extractJiraTickets commits))
    ∧ (∀ (commits : List CommitEntry), commits ≠ [] →
      ∀ (m1 : String) (rest : List String) (env : GenEnv) (resp : GenResponse),
      env.gen m1 0 = .ok resp → extractResponseText (some resp) ≠ "" →
      generateSummary commits false true (m1 :: rest) env
        = ⟨.ok (appendJiraIfMissing (extractJiraTickets commits)
              (extractResponseText (some resp)), some m1), [m1], []⟩)
    ∧ (∀ s : String, appendJiraIfMissing [] s = s)
    ∧ (∀ (t0 : String) (j : List String) (s : String),
        (jsIncludes s t0 = false →
          appendJiraIfMissing (t0 :: j) s
            = s ++ "\n\nJira Tickets: " ++ jsJoin ", " (t0 :: j))
        ∧ (jsIncludes s t0 = true → appendJiraIfMissing (t0 :: j) s = s)) := by
  refine ⟨?_, ?_, ?_, generateSummary_firstSuccess, fun s => rfl, ?_⟩
  · intro commits t
    unfold extractJiraTickets
    rw [mem_sortStrings, mem_dedupeStr, List.mem_flatMap]
    exact exists_congr (fun c => and_congr_right (fun _ => scanJira_mem c.message t))
  · intro commits
    exact nodup_sortStrings _ (nodup_dedupeStr _)
  · intro commits
    exact sorted_sortStrings _
  · intro t0 j s
    constructor
    · intro h
      unfold appendJiraIfMissing
      simp [h]
    · intro h
      unfold appendJiraIfMissing
      simp [h]

/-- Witness for C10: a concrete commit referencing `AB-1`, a generated text
not containing it — the ticket line is appended. -/
theorem claim_C10_witness :
    generateSummary commitsJ false true ["model-a"] envPlain
      = ⟨.ok ("Fixed the reported bug.\n\nJira Tickets: AB-1", some "model-a"),
         ["model-a"], []⟩
    ∧ extractJiraTickets commitsJ = ["AB-1"] := by
  constructor
  · have h := claim_C10_jira_tickets.2.2.2.1 commitsJ (by decide) "model-a" []
      envPlain respPlain rfl (by decide)
    rw [h]
    decide
  · decide

end Aistand
